import Mathlib

/-!
Verification development for the standard-form reformulation engine of
`pao/lbp/convert_repn.py` (multilevel linear/quadratic problems).

The Python module is shallowly embedded: numpy float bounds with the
`np.PINF`/`np.NINF` sentinels become the extended type `EF`; coefficient
vectors become `List ℚ`; scipy sparse matrices become coordinate lists
(`SpMat`); Python dict writes (`dok`/plain dict) become `dset`, whose
update-or-append behaviour mirrors dict assignment; fallible code returns
`Except ConvertError`.  Functions translated from `convert_repn.py` keep
their source names.  Pieces of the package that the conversion module uses
but that live in `repn.py` (which is not part of the analysed sources) are
modelled from the specification and carry a doc comment starting with
`Modelled from the spec:`.
-/

/-- Extended bound value: models a numpy float bound, where `np.PINF` and
`np.NINF` are the sentinels for missing bounds. -/
inductive EF where
  | ninf : EF
  | pinf : EF
  | fin : ℚ → EF
deriving DecidableEq, Repr, Inhabited

/-- Finite value of a bound.  The source only reads a bound as a number in
branches where it is finite; the value on the sentinels is junk. -/
def EF.toRat : EF → ℚ
  | .fin q => q
  | _ => 0

/-- Variable block of a level: counts of continuous (`nxR`), general integer
(`nxZ`) and binary (`nxB`) variables together with the bound arrays of the
continuous and integer variables (binaries are excluded from bound
processing). -/
structure LevelVariable where
  nxR : Nat
  nxZ : Nat
  nxB : Nat
  lower_bounds : List EF
  upper_bounds : List EF
deriving DecidableEq, Repr, Inhabited

/-- Total number of variables of a block (`len(L.x)`). -/
def lenx (V : LevelVariable) : Nat := V.nxR + V.nxZ + V.nxB

/-- The `VChange` hierarchy of `convert_repn.py` as a closed sum:
`VChangeLowerBound`, `VChangeUpperBound`, `VChangeRange`, `VChangeUnbounded`.
The `real` flag is false for general integer variables; `v` is the index of
the changed variable and `w` the optional index of a newly added variable. -/
inductive VChange where
  | lowerBound (real : Bool) (v : Nat) (lb : ℚ)
  | upperBound (real : Bool) (v : Nat) (ub : ℚ)
  | range (real : Bool) (v : Nat) (lb ub : ℚ) (w : Option Nat)
  | unbounded (real : Bool) (v : Nat) (w : Nat)
deriving DecidableEq, Repr, Inhabited

/-- The `v` attribute of a change. -/
def VChange.v : VChange → Nat
  | .lowerBound _ v _ => v
  | .upperBound _ v _ => v
  | .range _ v _ _ _ => v
  | .unbounded _ v _ => v

/-- The `w` attribute of a change (`None` unless a new variable was
allocated). -/
def VChange.wOpt : VChange → Option Nat
  | .lowerBound _ _ _ => none
  | .upperBound _ _ _ => none
  | .range _ _ _ _ w => w
  | .unbounded _ _ w => some w

/-- The `real` attribute of a change. -/
def VChange.real : VChange → Bool
  | .lowerBound r _ _ => r
  | .upperBound r _ _ => r
  | .range r _ _ _ _ => r
  | .unbounded r _ _ => r

/-- The `VChanges` container: the change list plus the old and new variable
counts of the level. -/
structure VChanges where
  data : List VChange
  nxR_old : Nat
  nxZ_old : Nat
  nxR : Nat
  nxZ : Nat
deriving DecidableEq, Repr, Inhabited

/-- One iteration of the classification loop of
`_find_nonpositive_variables`: variable `i` is classified by its bound
pattern and the running counts are updated.  The state is
`(change list, nxR, nxZ)`. -/
def findStep (V : LevelVariable) (inequalities : Bool)
    (st : List VChange × Nat × Nat) (i : Nat) : List VChange × Nat × Nat :=
  if V.upper_bounds.getD i (EF.fin 0) = EF.pinf then
    if V.lower_bounds.getD i (EF.fin 0) = EF.fin 0 then st
    else if V.lower_bounds.getD i (EF.fin 0) = EF.ninf then
      if i < V.nxR then
        (st.1 ++ [.unbounded true i st.2.1], st.2.1 + 1, st.2.2)
      else (st.1 ++ [.unbounded false i st.2.2], st.2.1, st.2.2 + 1)
    else
      (st.1 ++ [.lowerBound (decide (i < V.nxR)) i
        (V.lower_bounds.getD i (EF.fin 0)).toRat], st.2.1, st.2.2)
  else if V.lower_bounds.getD i (EF.fin 0) = EF.ninf then
    (st.1 ++ [.upperBound (decide (i < V.nxR)) i
      (V.upper_bounds.getD i (EF.fin 0)).toRat], st.2.1, st.2.2)
  else if inequalities then
    (st.1 ++ [.range (decide (i < V.nxR)) i
      (V.lower_bounds.getD i (EF.fin 0)).toRat
      (V.upper_bounds.getD i (EF.fin 0)).toRat none], st.2.1, st.2.2)
  else
    (st.1 ++ [.range (decide (i < V.nxR)) i
      (V.lower_bounds.getD i (EF.fin 0)).toRat
      (V.upper_bounds.getD i (EF.fin 0)).toRat (some st.2.1)],
      st.2.1 + 1, st.2.2)

/-- The classification loop of `_find_nonpositive_variables` over all
continuous and integer indices, before the integer reindexing pass. -/
def rawChanges (V : LevelVariable) (inequalities : Bool) :
    List VChange × Nat × Nat :=
  (List.range (V.nxR + V.nxZ)).foldl (findStep V inequalities) ([], V.nxR, V.nxZ)

/-- The reindexing pass at the end of `_find_nonpositive_variables`: once the
final `nxR` is known, the `v` of every integer-variable change is shifted by
`nxR - V.nxR`, and the `w` of an integer `VChangeUnbounded` is additionally
shifted by the final `nxR`. -/
def fixChange (nxR_old nxR : Nat) : VChange → VChange
  | .lowerBound r v lb =>
      if r then .lowerBound r v lb else .lowerBound r (v + (nxR - nxR_old)) lb
  | .upperBound r v ub =>
      if r then .upperBound r v ub else .upperBound r (v + (nxR - nxR_old)) ub
  | .range r v lb ub w =>
      if r then .range r v lb ub w else .range r (v + (nxR - nxR_old)) lb ub w
  | .unbounded r v w =>
      if r then .unbounded r v w
      else .unbounded r (v + (nxR - nxR_old)) (w + nxR)

/-- `_find_nonpositive_variables`: classify every continuous and integer
variable of a block, then reindex the integer-variable changes given the
final `nxR`. -/
def _find_nonpositive_variables (V : LevelVariable) (inequalities : Bool) :
    VChanges :=
  let st := rawChanges V inequalities
  { data := st.1.map (fixChange V.nxR st.2.1)
    nxR_old := V.nxR
    nxZ_old := V.nxZ
    nxR := st.2.1
    nxZ := st.2.2 }

/-- The `assert` at the end of `_find_nonpositive_variables`:
`nxR + nxZ == nxV + #{changes with a new index}`. -/
def find_assert (V : LevelVariable) (inequalities : Bool) : Bool :=
  let chgs := _find_nonpositive_variables V inequalities
  chgs.nxR + chgs.nxZ
    == (V.nxR + V.nxZ) + chgs.data.countP (fun c => c.wOpt.isSome)

/-- One change applied to the objective state `(c, d)`; body of the loop of
`_process_changes_obj`.  `c.getD v 0` is the numpy read `c[v]`, `c.set` the
in-place write. -/
def applyObjChange (cd : List ℚ × ℚ) (chg : VChange) : List ℚ × ℚ :=
  match chg with
  | .lowerBound _ v lb => (cd.1, cd.2 + cd.1.getD v 0 * lb)
  | .upperBound _ v ub =>
      (cd.1.set v (-(cd.1.getD v 0)), cd.2 + cd.1.getD v 0 * ub)
  | .range _ v lb _ w =>
      ((match w with
        | some s => cd.1.set s 0
        | none => cd.1), cd.2 + cd.1.getD v 0 * lb)
  | .unbounded _ v w => (cd.1.set w (-(cd.1.getD v 0)), cd.2)

/-- `_process_changes_obj`: rewrite an objective vector `c` (possibly `None`)
and offset `d` by a level's change list.  The `V` parameter of the source is
unused by its body and omitted here. -/
def _process_changes_obj (chgs : List VChange) (c : Option (List ℚ)) (d : ℚ) :
    Option (List ℚ) × ℚ :=
  match c with
  | none => (none, d)
  | some c0 =>
      let cd := chgs.foldl applyObjChange (c0, d)
      (some cd.1, cd.2)

/-- Value of a dense coefficient vector against an assignment of the
variables: `Σ_j c[j] * x j` over the indices of `c`. -/
def dotc (c : List ℚ) (x : Nat → ℚ) : ℚ :=
  ∑ j ∈ Finset.range c.length, c.getD j 0 * x j

/-- The forward variable substitution described by one change: shift by `lb`
for a lower bound, negate-and-shift by `ub` for an upper bound, shift by `lb`
(and give the slack its value `ub - x v`) for a range, and split into
positive and negative parts for an unbounded variable. -/
def forwardStep (x : Nat → ℚ) (chg : VChange) : Nat → ℚ :=
  match chg with
  | .lowerBound _ v lb => Function.update x v (x v - lb)
  | .upperBound _ v ub => Function.update x v (ub - x v)
  | .range _ v lb ub w =>
      (match w with
       | some s => Function.update (Function.update x v (x v - lb)) s (ub - x v)
       | none => Function.update x v (x v - lb))
  | .unbounded _ v w =>
      Function.update (Function.update x v (max (x v) 0)) w (max (-(x v)) 0)

/-- Forward substitution through a whole change list: the transformed point
corresponding to an original point `x` (given in the transformed index
space). -/
def forwardSub (chgs : List VChange) (x : Nat → ℚ) : Nat → ℚ :=
  chgs.foldl forwardStep x

/-- Indices of `c` written by one change. -/
def writeHit (chg : VChange) (j : Nat) : Bool :=
  j == chg.v ||
    (match chg.wOpt with
     | some w => j == w
     | none => false)

/-- Conditions on a single change used by the objective-equivalence theorem:
its indices are inside `c`, and a newly allocated index `w` is distinct from
`v` and carries a zero coefficient (new columns of the resized vector are
zero-filled). -/
def objHeadOK (c : List ℚ) (chg : VChange) : Bool :=
  decide (chg.v < c.length) &&
    (match chg.wOpt with
     | none => true
     | some w =>
         decide (w < c.length) && !(w == chg.v) && decide (c.getD w 0 = 0))

/-- Well-formedness of a change list against a coefficient vector: every
change satisfies `objHeadOK`, and a new index allocated by a later change is
never an index written by an earlier change.  The output of
`_find_nonpositive_variables` on a zero-padded resized vector satisfies
this. -/
def objSafeB (c : List ℚ) : List VChange → Bool
  | [] => true
  | chg :: rest =>
      objHeadOK c chg &&
        rest.all (fun c2 =>
          match c2.wOpt with
          | some w2 => !(writeHit chg w2)
          | none => true) &&
        objSafeB c rest

/-- Dictionary assignment `m[k] = q` for a coordinate dictionary: the value
stored at `k` is replaced (never accumulated). -/
def dset (m : List ((Nat × Nat) × ℚ)) (k : Nat × Nat) (q : ℚ) :
    List ((Nat × Nat) × ℚ) :=
  m.filter (fun e => e.1 ≠ k) ++ [(k, q)]

/-- Dictionary lookup: the value stored at `k`, if any. -/
def dfind (m : List ((Nat × Nat) × ℚ)) (k : Nat × Nat) : Option ℚ :=
  (m.find? (fun e => e.1 == k)).map (fun e => e.2)

/-- Dictionary read with the sparse default `0`. -/
def dget (m : List ((Nat × Nat) × ℚ)) (k : Nat × Nat) : ℚ :=
  (dfind m k).getD 0

/-- Value of the last item of an item list at key `k` (dict semantics of a
sequence of assignments: the last write wins). -/
def lastMatch : List ((Nat × Nat) × ℚ) → (Nat × Nat) → Option ℚ
  | [], _ => none
  | e :: rest, k =>
      match lastMatch rest k with
      | some q => some q
      | none => if e.1 = k then some e.2 else none

/-- `for k, v in items: m[k] = v` — fold a list of items into a dictionary by
assignment. -/
def mergeFold (m : List ((Nat × Nat) × ℚ)) (items : List ((Nat × Nat) × ℚ)) :
    List ((Nat × Nat) × ℚ) :=
  items.foldl (fun acc e => dset acc e.1 e.2) m

/-- A scipy sparse matrix: shape plus the list of stored
`((row, col), value)` entries. -/
structure SpMat where
  nrows : Nat
  ncols : Nat
  entries : List ((Nat × Nat) × ℚ)
deriving DecidableEq, Repr, Inhabited

/-- Value of a sparse matrix at a coordinate (`0` when no entry is
stored). -/
def spGet (M : SpMat) (k : Nat × Nat) : ℚ := dget M.entries k

/-- The stored entries of column `v` as `(row, value)` pairs — the CSC
column walk `indptr[v] ≤ i < indptr[v+1]` of the source. -/
def colEntries (entries : List ((Nat × Nat) × ℚ)) (v : Nat) :
    List (Nat × ℚ) :=
  entries.filterMap (fun e => if e.1.2 = v then some (e.1.1, e.2) else none)

/-- The dictionary writes of the new constraint row appended for a `Range`
change: coefficient `1` at the variable `v` and, when a slack index exists,
at the slack `w`, at row `nr`. -/
def rangeB (B : List ((Nat × Nat) × ℚ)) (nr v : Nat) (w : Option Nat) :
    List ((Nat × Nat) × ℚ) :=
  match w with
  | some s => dset (dset B (nr, v) 1) (nr, s) 1
  | none => dset B (nr, v) 1

/-- Loop state of `_process_changes_con`: the working copy of the matrix
entries (`Acsc`), the dictionary `B` of new coefficients, the right-hand
side `b` and the running row count `nrows`. -/
structure ConState where
  Acsc : List ((Nat × Nat) × ℚ)
  B : List ((Nat × Nat) × ℚ)
  b : List ℚ
  nrows : Nat
deriving Repr

/-- One change applied to the constraint state; body of the loop of
`_process_changes_con`.  For a bound shift the right-hand side is updated at
every stored row of column `v`; an upper bound additionally negates the
column in place; a range appends a new constraint row when `add_rows` holds;
an unbounded variable records `-A[row, v]` at the new column `w`. -/
def conStep (add_rows : Bool) (st : ConState) (chg : VChange) : ConState :=
  match chg with
  | .lowerBound _ v lb =>
      { st with
        b := (colEntries st.Acsc v).foldl
          (fun bb e => bb.set e.1 (bb.getD e.1 0 - e.2 * lb)) st.b }
  | .upperBound _ v ub =>
      { st with
        b := (colEntries st.Acsc v).foldl
          (fun bb e => bb.set e.1 (bb.getD e.1 0 - e.2 * ub)) st.b
        Acsc := st.Acsc.map (fun e => if e.1.2 = v then (e.1, -e.2) else e) }
  | .range _ v lb ub w =>
      let b1 := (colEntries st.Acsc v).foldl
        (fun bb e => bb.set e.1 (bb.getD e.1 0 - e.2 * lb)) st.b
      if add_rows then
        { st with
          b := b1 ++ [ub - lb]
          B := rangeB st.B st.nrows v w
          nrows := st.nrows + 1 }
      else { st with b := b1 }
  | .unbounded _ v w =>
      { st with
        B := mergeFold st.B
          ((colEntries st.Acsc v).map (fun e => ((e.1, w), -e.2))) }

/-- `_process_changes_con`: rewrite a constraint matrix (possibly `None`) and
right-hand side by a level's change list; new rows are appended only when
`add_rows` holds.  The final matrix is the dictionary holding first the new
coefficients `B` and then the (possibly negated) original entries, the
latter overwriting on a shared coordinate, with the column count taken from
the new variable counts. -/
def _process_changes_con (chgs : VChanges) (V : LevelVariable)
    (A : Option SpMat) (b : List ℚ) (add_rows : Bool) :
    Option SpMat × List ℚ :=
  let st0 : ConState :=
    { Acsc := ((A.map (fun M => M.entries)).getD [])
      B := []
      b := b
      nrows := (A.map (fun M => M.nrows)).getD 0 }
  let st := chgs.data.foldl (conStep add_rows) st0
  if st.nrows = 0 then (none, st.b)
  else
    (some { nrows := st.nrows
            ncols := chgs.nxR + chgs.nxZ + V.nxB
            entries := mergeFold st.B st.Acsc }, st.b)

/-- The `(v, w, lb, ub)` data of the `VChangeRange` elements of a change
list, in order. -/
def rangeData (chgs : List VChange) : List (Nat × Option Nat × ℚ × ℚ) :=
  chgs.filterMap (fun c =>
    match c with
    | .range _ v lb ub w => some (v, w, lb, ub)
    | _ => none)

/-- Lookup in a mapping keyed by level id (`X.c[L]`, `X.A[L]`; a missing key
reads as `None`). -/
def lget {α : Type} (m : List (Nat × α)) (k : Nat) : Option α :=
  (m.find? (fun e => e.1 == k)).map (fun e => e.2)

/-- Assignment in a mapping keyed by level id. -/
def lset {α : Type} (m : List (Nat × α)) (k : Nat) (v : α) :
    List (Nat × α) :=
  m.filter (fun e => e.1 ≠ k) ++ [(k, v)]

/-- Assignment of `None` in a mapping keyed by level id: the key is
dropped. -/
def lremove {α : Type} (m : List (Nat × α)) (k : Nat) : List (Nat × α) :=
  m.filter (fun e => e.1 ≠ k)

/-- One level of a multilevel problem: id, variable block, sense and
constraint-form flags, objective vectors keyed by the referenced level,
objective constant, constraint matrices keyed by the referenced level,
right-hand side, and quadratic term table.  `isQuad` models
`type(L) is QuadraticLevelRepn`. -/
structure LevelData where
  id : Nat
  x : LevelVariable
  minimize : Bool
  inequalities : Bool
  cmap : List (Nat × List ℚ)
  d : ℚ
  Amap : List (Nat × SpMat)
  b : List ℚ
  Pmap : List ((Nat × Nat) × SpMat)
  isQuad : Bool
deriving DecidableEq, Repr, Inhabited

/-- Modelled from the spec: the `LinearMultilevelProblem` and
`QuadraticMultilevelProblem` classes live in `repn.py`, which is not among
the analysed sources.  Per §3 of the specification a problem is its kind
plus a traversal producing every level, parent before descendants and
consistent across runs; we take the problem to be that traversal, a list of
levels.  Per §4.2 the per-level rewrites are applied to every level of the
problem that references the changed level's variables, so the iteration
`for X in L.levels()` is modelled as iterating this list. -/
structure Problem where
  kind : Nat
  levels : List LevelData
deriving DecidableEq, Repr, Inhabited

/-- Kind tag for `LinearMultilevelProblem`. -/
def kindLinear : Nat := 0

/-- Kind tag for `QuadraticMultilevelProblem`. -/
def kindQuadratic : Nat := 1

/-- The error taxonomy of the specification mapped onto the failure points
of `convert_repn.py`: the input-type `assert` of `convert_to_standard_form`,
the failing call of `_process_changes_P` (its body is `pass`, and the call
site passes six arguments to a four-parameter function and unpacks the
result, so the statement raises as soon as it is executed), the
variable-count `assert` of `_find_nonpositive_variables`, and the unguarded
list subscript `multipliers[L.id][chg.v] = ...` of `get_multipliers`, which
raises `IndexError` whenever the reindexed change index `chg.v` falls
outside the original level's variable count. -/
inductive ConvertError where
  | TypeKindError
  | UnsupportedStructureError
  | InternalConsistencyError
  | IndexError
deriving DecidableEq, Repr

/-- `convert_sense`: if the level's sense differs from the target, negate
`d`, every vector of `c` and (for a quadratic level) every matrix of `P`,
and flip the flag. -/
def convert_sense (L : LevelData) (minimize : Bool) : LevelData :=
  if (minimize && !L.minimize) || (!minimize && L.minimize) then
    { L with
      minimize := minimize
      d := -L.d
      cmap := L.cmap.map (fun e => (e.1, e.2.map (fun q => -q)))
      Pmap :=
        if L.isQuad then
          L.Pmap.map (fun e =>
            (e.1, { e.2 with
                    entries := e.2.entries.map (fun en => (en.1, -en.2)) }))
        else L.Pmap }
  else L

/-- `convert_to_minimization`: force every level to minimization. -/
def convert_to_minimization (P : Problem) : Problem :=
  { P with levels := P.levels.map (fun L => convert_sense L true) }

/-- `add_ineq_constraints`: stack below a matrix its negated copy (the rows
of `Ax = b` are duplicated as `-Ax ≤ -b`). -/
def add_ineq_constraints (mat : SpMat) : SpMat :=
  { mat with
    nrows := mat.nrows + mat.nrows
    entries := mat.entries ++
      mat.entries.map (fun e => ((e.1.1 + mat.nrows, e.1.2), -e.2)) }

/-- Modelled from the spec: `LevelRepn.resize` lives in `repn.py`, which is
not among the analysed sources.  Per §4.1 and §4.5 of the specification,
resizing a level's variable block appends new continuous slots after the
existing continuous block and new integer slots after the existing integer
block, keeps the bounds of surviving variables and fills new slots with the
given bounds, and renumbers the columns of every vector `X.c[L]` and matrix
`X.A[L]` that references the resized level so that they are indexed by the
new numbering (the reindexed `v`/`w` of the change lists are used as column
indices by the rewriters, so referencing structures must already carry the
new numbering). -/
def resizeLevelX (oR oZ : Nat) (lid nxR2 nxZ2 nxB2 : Nat)
    (lbFill ubFill : EF) (X : LevelData) : LevelData :=
  let dR := nxR2 - oR
  let dZ := nxZ2 - oZ
  let renum : Nat → Nat := fun j =>
    if j < oR then j else if j < oR + oZ then j + dR else j + dR + dZ
  let newLen := nxR2 + nxZ2 + nxB2
  let cvec : List ℚ → List ℚ := fun c =>
    (List.range newLen).map (fun j =>
      if j < oR then c.getD j 0
      else if j < nxR2 then 0
      else if j < nxR2 + oZ then c.getD (oR + (j - nxR2)) 0
      else if j < nxR2 + nxZ2 then 0
      else c.getD (oR + oZ + (j - nxR2 - nxZ2)) 0)
  let bnds : List EF → EF → List EF := fun bs fill =>
    (List.range (nxR2 + nxZ2)).map (fun j =>
      if j < oR then bs.getD j fill
      else if j < nxR2 then fill
      else if j < nxR2 + oZ then bs.getD (oR + (j - nxR2)) fill
      else fill)
  let X1 :=
    if X.id = lid then
      { X with x :=
          { nxR := nxR2, nxZ := nxZ2, nxB := nxB2
            lower_bounds := bnds X.x.lower_bounds lbFill
            upper_bounds := bnds X.x.upper_bounds ubFill } }
    else X
  let X2 :=
    match lget X1.cmap lid with
    | some c => { X1 with cmap := lset X1.cmap lid (cvec c) }
    | none => X1
  match lget X2.Amap lid with
  | some M =>
      let M2 : SpMat :=
        { M with
          ncols := newLen
          entries := M.entries.map (fun e =>
            ((e.1.1, renum e.1.2), e.2)) }
      { X2 with Amap := lset X2.Amap lid M2 }
  | none => X2

def resizeLevel (P : Problem) (lid : Nat) (nxR2 nxZ2 nxB2 : Nat)
    (lbFill ubFill : EF) : Problem :=
  match P.levels.find? (fun L => L.id == lid) with
  | none => P
  | some L0 =>
      { P with
        levels := P.levels.map
          (resizeLevelX L0.x.nxR L0.x.nxZ lid nxR2 nxZ2 nxB2 lbFill ubFill) }

/-- The assignment `L.x.lower_bounds = np.zeros(len(L.x))` of
`convert_to_nonnegative_variables`, applied to the level with id `lid`. -/
def setLowerZerosX (lid n : Nat) (X : LevelData) : LevelData :=
  if X.id = lid then
    { X with x := { X.x with lower_bounds := List.replicate n (EF.fin 0) } }
  else X

def setLowerZeros (P : Problem) (lid n : Nat) : Problem :=
  { P with levels := P.levels.map (setLowerZerosX lid n) }

/-- `convert_constraints`: make every level's constraint convention match the
global target — duplicate-and-negate rows to turn equalities into
inequalities, or resize the level by one slack per row and put a unit
coefficient on the diagonal of the new block to turn inequalities into
equalities — then set every `inequalities` flag to the target. -/
def convert_constraints (P : Problem) (inequalities : Bool) : Problem :=
  let P1 :=
    if inequalities then
      { P with
        levels := P.levels.map (fun L =>
          if !L.inequalities then
            { L with
              b := L.b ++ L.b.map (fun q => -q)
              Amap := L.Amap.map (fun e => (e.1, add_ineq_constraints e.2)) }
          else L) }
    else
      (List.range P.levels.length).foldl (fun acc p =>
        let L := acc.levels.getD p default
        if L.inequalities && decide (0 < L.b.length) then
          let nxR := L.x.nxR
          let acc1 := resizeLevel acc L.id (nxR + L.b.length) L.x.nxZ L.x.nxB
            (EF.fin 0) EF.pinf
          match acc1.levels.find? (fun X => X.id == L.id) with
          | none => acc1
          | some L1 =>
              match lget L1.Amap L.id with
              | none => acc1
              | some B =>
                  let B2 :=
                    { B with
                      entries := (List.range L.b.length).foldl
                        (fun es i => dset es (i, nxR + i) 1) B.entries }
                  { acc1 with
                    levels := acc1.levels.map (fun X =>
                      if X.id = L.id then
                        { X with Amap := lset X.Amap L.id B2 }
                      else X) }
        else acc) P
  { P1 with
    levels := P1.levels.map (fun L => { L with inequalities := inequalities }) }

/-- Body of the inner loop `for X in L.levels()` of
`convert_to_nonnegative_variables`, for the referencing level at position
`q`: rewrite `X.c[L]`, `X.d`, `X.A[L]` and `X.b` by the change list of the
level `lid`, adding rows only when `X` is that level itself, then fail on
the quadratic-term propagation call as soon as `X.P` is nonempty. -/
def nonnegInner (lid : Nat) (ch : VChanges) (Lx : LevelVariable)
    (acc : Problem) (q : Nat) : Except ConvertError Problem :=
  let X := acc.levels.getD q default
  let cd := _process_changes_obj ch.data (lget X.cmap lid) X.d
  let ab := _process_changes_con ch Lx (lget X.Amap lid) X.b (lid == X.id)
  let X2 :=
    { X with
      cmap := (match cd.1 with
               | some cv => lset X.cmap lid cv
               | none => X.cmap)
      d := cd.2
      Amap := (match ab.1 with
               | some M => lset X.Amap lid M
               | none => lremove X.Amap lid)
      b := ab.2 }
  let acc2 := { acc with levels := acc.levels.set q X2 }
  if 0 < X.Pmap.length then Except.error ConvertError.UnsupportedStructureError
  else Except.ok acc2

/-- Body of the outer loop `for L in ans.levels()` of
`convert_to_nonnegative_variables`, for the level at position `p`: resize it
to the counts of its change list, zero its lower bounds, and — when its
change list is nonempty — rewrite every referencing level. -/
def nonnegOuter (changes : List (Nat × VChanges)) (acc : Problem) (p : Nat) :
    Except ConvertError Problem :=
  let L := acc.levels.getD p default
  let ch := (lget changes L.id).getD default
  let acc1 := resizeLevel acc L.id ch.nxR ch.nxZ L.x.nxB EF.ninf EF.pinf
  let acc2 := setLowerZeros acc1 L.id (ch.nxR + ch.nxZ)
  if 0 < ch.data.length then
    let Lx := (((acc2.levels.find? (fun X => X.id == L.id)).map
      (fun X => X.x)).getD default)
    (List.range acc2.levels.length).foldlM (nonnegInner L.id ch Lx) acc2
  else Except.ok acc2

/-- `convert_to_nonnegative_variables`: compute every level's change list,
then process every level — resize, zero the lower bounds and propagate the
rewrite to every referencing level — returning the rewritten problem and
the change lists keyed by level id. -/
def convert_to_nonnegative_variables (P : Problem) (inequalities : Bool) :
    Except ConvertError (Problem × List (Nat × VChanges)) :=
  let changes := P.levels.map (fun L =>
    (L.id, _find_nonpositive_variables L.x inequalities))
  match (List.range P.levels.length).foldlM (nonnegOuter changes) P with
  | Except.error e => Except.error e
  | Except.ok P2 => Except.ok (P2, changes)

/-- The matrix-resize loop of `convert_to_standard_form`: set the shape of
every stored matrix `X.A[L]` to `(len(X.b), len(L.x))`. -/
def resize_matrices (P : Problem) : Problem :=
  { P with
    levels := P.levels.map (fun X =>
      { X with Amap := X.Amap.map (fun e =>
          match P.levels.find? (fun L => L.id == e.1) with
          | some L =>
              (e.1, { e.2 with nrows := X.b.length, ncols := lenx L.x })
          | none => e) }) }

/-- One change applied to a level's multiplier table; body of the loop of
`get_multipliers`.  The assignment `multipliers[L.id][chg.v] = ...` of the
source subscripts a Python list, which raises `IndexError` when `chg.v` is
not below the table's length (the table has one slot per variable of the
original level), so the out-of-range case is `none`. -/
def multStep (m : List (List (Nat × ℚ))) (chg : VChange) :
    Option (List (List (Nat × ℚ))) :=
  match chg with
  | .upperBound _ v _ =>
      if v < m.length then some (m.set v [(v, -1)]) else none
  | .unbounded _ v w =>
      if v < m.length then some (m.set v [(v, 1), (w, -1)]) else none
  | _ => some m

/-- `get_multipliers`: per level of the original problem, the per-variable
multiplier lists — `[(i, 1)]` by default, overwritten at index `chg.v` for
upper-bound and unbounded changes; the unguarded subscript raises
`IndexError` when a change index falls outside the original block. -/
def get_multipliers (lbp : Problem) (changes : List (Nat × VChanges)) :
    Except ConvertError (List (Nat × List (List (Nat × ℚ)))) :=
  match lbp.levels.mapM (fun L =>
      (List.foldlM multStep
        ((List.range (lenx L.x)).map (fun i => [((i : Nat), (1 : ℚ))]))
        (((lget changes L.id).map (fun c => c.data)).getD [])).map
        (fun m => (L.id, m))) with
  | some l => Except.ok l
  | none => Except.error ConvertError.IndexError

/-- Modelled from the spec: `clone` lives in `repn.py`, which is not among
the analysed sources.  Per §3 of the specification it deep-copies the input
problem, a value copy under the value semantics of this embedding. -/
def Problem.clone (M : Problem) : Problem := M

/-- `convert_to_standard_form`: check the input kind, clone, force
minimization, convert the constraint form, normalize the variables, resize
every referencing matrix, and build the reconstruction multipliers from the
original problem and the change lists. -/
def convert_to_standard_form (M : Problem) (inequalities : Bool) :
    Except ConvertError (Problem × List (Nat × List (List (Nat × ℚ)))) :=
  if M.kind = kindLinear ∨ M.kind = kindQuadratic then
    let ans0 := M.clone
    let ans1 := convert_to_minimization ans0
    let ans2 := convert_constraints ans1 inequalities
    match convert_to_nonnegative_variables ans2 inequalities with
    | Except.error e => Except.error e
    | Except.ok (ans3, changes) =>
        let ans4 := resize_matrices ans3
        match get_multipliers M changes with
        | Except.error e => Except.error e
        | Except.ok mults => Except.ok (ans4, mults)
  else Except.error ConvertError.TypeKindError

/-- A variable block with one canonical continuous variable and one
unbounded integer variable. -/
def exC4V : LevelVariable :=
  { nxR := 1, nxZ := 1, nxB := 0
    lower_bounds := [EF.fin 0, EF.ninf], upper_bounds := [EF.pinf, EF.pinf] }

/-- A variable block with one continuous variable bounded below by `1` and
one unbounded continuous variable. -/
def exC1V : LevelVariable :=
  { nxR := 2, nxZ := 0, nxB := 0
    lower_bounds := [EF.fin 1, EF.ninf], upper_bounds := [EF.pinf, EF.pinf] }

/-- A single level with one continuous variable bounded above by `5` and
below by nothing. -/
def exC2L : LevelData :=
  { id := 0
    x := { nxR := 1, nxZ := 0, nxB := 0
           lower_bounds := [EF.ninf], upper_bounds := [EF.fin 5] }
    minimize := true
    inequalities := true
    cmap := []
    d := 0
    Amap := []
    b := []
    Pmap := []
    isQuad := false }

/-- A linear problem holding only `exC2L`. -/
def exC2P : Problem := { kind := kindLinear, levels := [exC2L] }

/-- A 2-by-3 sparse matrix whose third column is empty. -/
def exC3M : SpMat :=
  { nrows := 2, ncols := 3
    entries := [((0, 0), 2), ((1, 0), -3), ((0, 1), 7)] }

/-- A change container holding one `Unbounded` change splitting variable `0`
into the fresh column `2`. -/
def exC3chgs : VChanges :=
  { data := [VChange.unbounded true 0 2]
    nxR_old := 2, nxZ_old := 0, nxR := 3, nxZ := 0 }

/-- A variable block with three continuous variables and no bounds data. -/
def exC3V : LevelVariable :=
  { nxR := 3, nxZ := 0, nxB := 0, lower_bounds := [], upper_bounds := [] }

/-- A variable block with one continuous variable bounded in `[2, 5]` — the
concrete range scenario of the specification. -/
def exC5V : LevelVariable :=
  { nxR := 1, nxZ := 0, nxB := 0
    lower_bounds := [EF.fin 2], upper_bounds := [EF.fin 5] }

/-- A 1-by-1 matrix with a single unit entry. -/
def exC5M : SpMat := { nrows := 1, ncols := 1, entries := [((0, 0), 1)] }

/-- A level with one unbounded continuous variable and one integer variable
bounded above by `5`. -/
def exC9L : LevelData :=
  { id := 0
    x := { nxR := 1, nxZ := 1, nxB := 0
           lower_bounds := [EF.ninf, EF.ninf]
           upper_bounds := [EF.pinf, EF.fin 5] }
    minimize := true
    inequalities := true
    cmap := []
    d := 0
    Amap := []
    b := []
    Pmap := []
    isQuad := false }

/-- A linear problem holding only `exC9L`. -/
def exC9P : Problem := { kind := kindLinear, levels := [exC9L] }

/-- A level owning one continuous variable bounded below by `1`, carrying a
nonempty quadratic term map. -/
def exC7L : LevelData :=
  { id := 0
    x := { nxR := 1, nxZ := 0, nxB := 0
           lower_bounds := [EF.fin 1], upper_bounds := [EF.pinf] }
    minimize := true
    inequalities := true
    cmap := []
    d := 0
    Amap := []
    b := []
    Pmap := [((0, 0), { nrows := 1, ncols := 1, entries := [((0, 0), 1)] })]
    isQuad := true }

/-- A quadratic problem holding only `exC7L`. -/
def exC7P : Problem := { kind := kindQuadratic, levels := [exC7L] }

/-- A problem whose kind tag is neither linear nor quadratic. -/
def exC8P : Problem := { kind := 2, levels := [] }

/-- Coefficient pattern of a constraint row appended for a `Range` change
`t = (v, w?, lb, ub)`: `1` at the shifted variable `v` and at the slack `w`
when one exists, `0` elsewhere. -/
def rowIndicator (t : Nat × Option Nat × ℚ × ℚ) (col : Nat) : ℚ :=
  if col = t.1 then 1
  else
    (match t.2.1 with
     | some s => if col = s then 1 else 0
     | none => 0)

/-- Invariant of the loop of `_process_changes_con`, relating the state to
the list `done` of `(v, w?, lb, ub)` data of the `Range` changes processed
so far (empty when `add_rows` is off): the row count and the length of `b`
each grew by `done.length`, the appended tail of `b` is `ub - lb` per range,
the dictionary `B` holds exactly the indicator row of the `k`-th range at
row `n0 + k`, all its keys stay below the current row count, and the working
matrix entries keep rows below `n0`. -/
def ConInv (ar : Bool) (n0 bl0 : Nat) (st : ConState)
    (done : List (Nat × Option Nat × ℚ × ℚ)) : Prop :=
  st.nrows = n0 + done.length ∧
  st.b.length = bl0 + done.length ∧
  st.b.drop bl0 = done.map (fun t => t.2.2.2 - t.2.2.1) ∧
  (∀ k, k < done.length → ∀ col,
    dget st.B (n0 + k, col) = rowIndicator (done.getD k (0, none, 0, 0)) col) ∧
  (∀ e ∈ st.B, e.1.1 < n0 + done.length) ∧
  (∀ e ∈ st.Acsc, e.1.1 < n0) ∧
  (ar = false → done = [])

/-- The loop state reached by `_process_changes_con` on a present matrix:
the fold of `conStep` over the change list from the initial state. -/
def conFoldSt (chgsR : VChanges) (M : SpMat) (b : List ℚ) (ar : Bool) :
    ConState :=
  chgsR.data.foldl (conStep ar)
    { Acsc := M.entries, B := [], b := b, nrows := M.nrows }

/-! ## Helper lemmas about lists and dictionaries -/

theorem getD_set_self {α : Type} (l : List α) (i : Nat) (a d : α)
    (h : i < l.length) : (l.set i a).getD i d = a := by
  induction l generalizing i with
  | nil => simp at h
  | cons hd tl ih =>
    cases i with
    | zero => rfl
    | succ n => simpa using ih n (by simpa using h)

theorem getD_set_ne {α : Type} (l : List α) (i j : Nat) (a d : α)
    (h : j ≠ i) : (l.set i a).getD j d = l.getD j d := by
  induction l generalizing i j with
  | nil => simp
  | cons hd tl ih =>
    cases i with
    | zero =>
      cases j with
      | zero => exact absurd rfl h
      | succ m => simp
    | succ n =>
      cases j with
      | zero => simp
      | succ m => simpa using ih n m (fun hc => h (by simpa using hc))

theorem getD_map_of_lt {α β : Type} [Inhabited α] [Inhabited β]
    (f : α → β) (l : List α) (k : Nat) (hk : k < l.length) :
    (l.map f).getD k default = f (l.getD k default) := by
  induction l generalizing k with
  | nil => simp at hk
  | cons hd tl ih =>
    cases k with
    | zero => rfl
    | succ n => simpa using ih n (by simpa using hk)

theorem getD_range_map {β : Type} (f : Nat → β) (n k : Nat) (d : β)
    (hk : k < n) : (((List.range n).map f).getD k d) = f k := by
  induction n with
  | zero => simp at hk
  | succ m ih =>
    rcases Nat.lt_or_ge k m with h | h
    · rw [List.range_succ, List.map_append, List.getD_append]
      · exact ih h
      · simpa using h
    · have hk2 : k = m := by omega
      subst hk2
      rw [List.range_succ, List.map_append]
      rw [List.getD_append_right]
      · simp
      · simp

theorem countP_snoc_true {α : Type} (l : List α) (p : α → Bool) (a : α)
    (ha : p a = true) : (l ++ [a]).countP p = l.countP p + 1 := by
  simp [List.countP_append, List.countP_cons, ha]

theorem countP_snoc_false {α : Type} (l : List α) (p : α → Bool) (a : α)
    (ha : p a = false) : (l ++ [a]).countP p = l.countP p := by
  simp [List.countP_append, List.countP_cons, ha]

theorem wOpt_fixChange (a b : Nat) (c : VChange) :
    ((fixChange a b c).wOpt).isSome = (c.wOpt).isSome := by
  cases c <;> simp only [fixChange] <;> split <;> rfl

theorem findStep_count_inv (V : LevelVariable) (ineq : Bool) (k : Nat)
    (st : List VChange × Nat × Nat) (i : Nat)
    (h : st.2.1 + st.2.2 = k + st.1.countP (fun c => c.wOpt.isSome)) :
    (findStep V ineq st i).2.1 + (findStep V ineq st i).2.2 =
      k + (findStep V ineq st i).1.countP (fun c => c.wOpt.isSome) := by
  unfold findStep
  split_ifs <;>
    (try rw [countP_snoc_true _ _ _ rfl]) <;>
    (try rw [countP_snoc_false _ _ _ rfl]) <;>
    (try dsimp only) <;>
    omega

theorem findFold_count_inv (V : LevelVariable) (ineq : Bool) (k : Nat) :
    ∀ (l : List Nat) (st : List VChange × Nat × Nat),
    st.2.1 + st.2.2 = k + st.1.countP (fun c => c.wOpt.isSome) →
    (l.foldl (findStep V ineq) st).2.1 + (l.foldl (findStep V ineq) st).2.2 =
      k + (l.foldl (findStep V ineq) st).1.countP (fun c => c.wOpt.isSome) := by
  intro l
  induction l with
  | nil => intro st h; exact h
  | cons i rest ih =>
      intro st h
      exact ih (findStep V ineq st i) (findStep_count_inv V ineq k st i h)

/-- C6: the variable-count identity checked by the `assert` of
`_find_nonpositive_variables` holds for every variable block and either
target form, so the internal-consistency failure branch is unreachable. -/
theorem C6_count_identity (V : LevelVariable) (inequalities : Bool) :
    find_assert V inequalities = true := by
  have hraw := findFold_count_inv V inequalities (V.nxR + V.nxZ)
    (List.range (V.nxR + V.nxZ)) ([], V.nxR, V.nxZ) (by simp)
  have hcount :
      ((rawChanges V inequalities).1.map
        (fixChange V.nxR (rawChanges V inequalities).2.1)).countP
          (fun c => c.wOpt.isSome) =
      (rawChanges V inequalities).1.countP (fun c => c.wOpt.isSome) := by
    rw [List.countP_map]
    refine List.countP_congr ?_
    intro c _
    simp [Function.comp, wOpt_fixChange]
  simp only [find_assert, _find_nonpositive_variables]
  rw [Nat.beq_eq_true_eq]
  rw [hcount]
  simpa [rawChanges] using hraw

/-- C4 (amended): after `_find_nonpositive_variables` finishes a level, a
change produced for a continuous variable is returned unchanged; a change
produced for an integer variable has its `v` shifted by exactly
`finalNxR - originalNxR`, computed from the final `nxR`; the new index `w`
of an integer `Unbounded` change — allocated relative to the integer block —
is shifted by the final `nxR` itself, not by `finalNxR - originalNxR`; and
the `w` of any other change is not shifted. -/
theorem C4_integer_reindexing (V : LevelVariable) (ineq : Bool) (k : Nat)
    (hk : k < (rawChanges V ineq).1.length) :
    (((rawChanges V ineq).1.getD k default).real = true →
      ((_find_nonpositive_variables V ineq).data.getD k default =
        (rawChanges V ineq).1.getD k default)) ∧
    (((rawChanges V ineq).1.getD k default).real = false →
      ((_find_nonpositive_variables V ineq).data.getD k default).v =
        ((rawChanges V ineq).1.getD k default).v +
          ((_find_nonpositive_variables V ineq).nxR - V.nxR)) ∧
    (∀ v w, (rawChanges V ineq).1.getD k default =
        VChange.unbounded false v w →
      (_find_nonpositive_variables V ineq).data.getD k default =
        VChange.unbounded false
          (v + ((_find_nonpositive_variables V ineq).nxR - V.nxR))
          (w + (_find_nonpositive_variables V ineq).nxR)) ∧
    ((∀ r v w, (rawChanges V ineq).1.getD k default ≠
        VChange.unbounded r v w) →
      ((_find_nonpositive_variables V ineq).data.getD k default).wOpt =
        ((rawChanges V ineq).1.getD k default).wOpt) := by
  have hmap : (_find_nonpositive_variables V ineq).data.getD k default =
      fixChange V.nxR (rawChanges V ineq).2.1
        ((rawChanges V ineq).1.getD k default) := by
    simp only [_find_nonpositive_variables]
    exact getD_map_of_lt _ _ k hk
  have hfinR : (_find_nonpositive_variables V ineq).nxR =
      (rawChanges V ineq).2.1 := rfl
  refine ⟨?_, ?_, ?_, ?_⟩
  · intro hreal
    rw [hmap]
    cases hc : (rawChanges V ineq).1.getD k default <;>
      rw [hc] at hreal <;>
      simp only [VChange.real] at hreal <;>
      simp [fixChange, hreal]
  · intro hreal
    rw [hmap, hfinR]
    cases hc : (rawChanges V ineq).1.getD k default <;>
      rw [hc] at hreal <;>
      simp only [VChange.real] at hreal <;>
      simp [fixChange, hreal, VChange.v]
  · intro v w hc
    rw [hmap, hfinR, hc]
    simp [fixChange]
  · intro hnot
    rw [hmap]
    cases hc : (rawChanges V ineq).1.getD k default with
    | lowerBound r v lb =>
        simp only [fixChange]
        split <;> rfl
    | upperBound r v ub =>
        simp only [fixChange]
        split <;> rfl
    | range r v lb ub w =>
        simp only [fixChange]
        split <;> rfl
    | unbounded r v w => exact absurd hc (by simpa using hnot r v w)

theorem C4_reindexing_witness :
    0 < (rawChanges exC4V false).1.length ∧
    ((((rawChanges exC4V false).1.getD 0 default).real = true →
       ((_find_nonpositive_variables exC4V false).data.getD 0 default =
         (rawChanges exC4V false).1.getD 0 default)) ∧
     (((rawChanges exC4V false).1.getD 0 default).real = false →
       ((_find_nonpositive_variables exC4V false).data.getD 0 default).v =
         ((rawChanges exC4V false).1.getD 0 default).v +
           ((_find_nonpositive_variables exC4V false).nxR - exC4V.nxR)) ∧
     (∀ v w, (rawChanges exC4V false).1.getD 0 default =
         VChange.unbounded false v w →
       (_find_nonpositive_variables exC4V false).data.getD 0 default =
         VChange.unbounded false
           (v + ((_find_nonpositive_variables exC4V false).nxR - exC4V.nxR))
           (w + (_find_nonpositive_variables exC4V false).nxR)) ∧
     ((∀ r v w, (rawChanges exC4V false).1.getD 0 default ≠
         VChange.unbounded r v w) →
       ((_find_nonpositive_variables exC4V false).data.getD 0 default).wOpt =
         ((rawChanges exC4V false).1.getD 0 default).wOpt)) :=
  ⟨by decide, C4_integer_reindexing exC4V false 0 (by decide)⟩

/-- C4 (counterexample): on a block with one canonical continuous variable
and one unbounded integer variable, the integer `Unbounded` change is
produced with `v = 1, w = 1`; the claimed shift `finalNxR - originalNxR` is
`0`, yet the returned change carries `w = 2` — `w` was shifted by the final
`nxR` (here `1`), not by `finalNxR - originalNxR`. -/
theorem C4_counterexample :
    (rawChanges exC4V false).1 = [VChange.unbounded false 1 1] ∧
    (_find_nonpositive_variables exC4V false).nxR - exC4V.nxR = 0 ∧
    (_find_nonpositive_variables exC4V false).data =
      [VChange.unbounded false 1 2] ∧
    VChange.unbounded false 1 2 ≠
      VChange.unbounded false (1 + 0) (1 + 0) := by decide

/-! ## Objective equivalence (C1) -/

theorem maxSub (t : ℚ) : max t 0 - max (-t) 0 = t := by
  rcases le_total t 0 with h | h
  · rw [max_eq_right h, max_eq_left (by linarith)]
    ring
  · rw [max_eq_left h, max_eq_right (by linarith)]
    ring

theorem dotc_update (c : List ℚ) (x : Nat → ℚ) (v : Nat) (t : ℚ)
    (hv : v < c.length) :
    dotc c (Function.update x v t) = dotc c x + c.getD v 0 * (t - x v) := by
  have hmem : v ∈ Finset.range c.length := Finset.mem_range.mpr hv
  unfold dotc
  rw [← Finset.sum_erase_add _ _ hmem, ← Finset.sum_erase_add _ _ hmem]
  have hsum : ∑ j ∈ (Finset.range c.length).erase v,
      c.getD j 0 * (Function.update x v t) j =
      ∑ j ∈ (Finset.range c.length).erase v, c.getD j 0 * x j := by
    refine Finset.sum_congr rfl fun j hj => ?_
    rw [Function.update_noteq (Finset.ne_of_mem_erase hj)]
  rw [hsum, Function.update_same]
  ring

theorem dotc_set (c : List ℚ) (x : Nat → ℚ) (v : Nat) (a : ℚ)
    (hv : v < c.length) :
    dotc (c.set v a) x = dotc c x + (a - c.getD v 0) * x v := by
  have hmem : v ∈ Finset.range c.length := Finset.mem_range.mpr hv
  unfold dotc
  rw [List.length_set]
  rw [← Finset.sum_erase_add _ _ hmem, ← Finset.sum_erase_add _ _ hmem]
  have hsum : ∑ j ∈ (Finset.range c.length).erase v,
      (c.set v a).getD j 0 * x j =
      ∑ j ∈ (Finset.range c.length).erase v, c.getD j 0 * x j := by
    refine Finset.sum_congr rfl fun j hj => ?_
    rw [getD_set_ne c v j a 0 (Finset.ne_of_mem_erase hj)]
  rw [hsum, getD_set_self c v a 0 hv]
  ring

theorem objStep_preserves (c : List ℚ) (d : ℚ) (x : Nat → ℚ) (chg : VChange)
    (h : objHeadOK c chg = true) :
    dotc (applyObjChange (c, d) chg).1 (forwardStep x chg) +
      (applyObjChange (c, d) chg).2 = dotc c x + d := by
  cases chg with
  | lowerBound r v lb =>
      have hv : v < c.length := by
        simpa [objHeadOK, VChange.v, VChange.wOpt] using h
      simp only [applyObjChange, forwardStep]
      rw [dotc_update c x v (x v - lb) hv]
      ring
  | upperBound r v ub =>
      have hv : v < c.length := by
        simpa [objHeadOK, VChange.v, VChange.wOpt] using h
      simp only [applyObjChange, forwardStep]
      rw [dotc_update (c.set v (-(c.getD v 0))) x v (ub - x v)
        (by simpa using hv)]
      rw [dotc_set c x v (-(c.getD v 0)) hv]
      rw [getD_set_self c v (-(c.getD v 0)) 0 hv]
      ring
  | range r v lb ub w =>
      cases w with
      | none =>
          have hv : v < c.length := by
            simpa [objHeadOK, VChange.v, VChange.wOpt] using h
          simp only [applyObjChange, forwardStep]
          rw [dotc_update c x v (x v - lb) hv]
          ring
      | some s =>
          simp only [objHeadOK, VChange.v, VChange.wOpt, Bool.and_eq_true,
            decide_eq_true_eq, Bool.not_eq_true', beq_eq_false_iff_ne] at h
          have hv := h.1
          have hs := h.2.1.1
          have hsv := h.2.1.2
          have hz := h.2.2
          simp only [applyObjChange, forwardStep]
          rw [dotc_update (c.set s 0) (Function.update x v (x v - lb)) s
            (ub - x v) (by simpa using hs)]
          rw [getD_set_self c s 0 0 hs]
          rw [dotc_update (c.set s 0) x v (x v - lb) (by simpa using hv)]
          rw [getD_set_ne c s v 0 0 (fun hvs => hsv hvs.symm)]
          rw [dotc_set c x s 0 hs]
          rw [hz]
          ring
  | unbounded r v w =>
      simp only [objHeadOK, VChange.v, VChange.wOpt, Bool.and_eq_true,
        decide_eq_true_eq, Bool.not_eq_true', beq_eq_false_iff_ne] at h
      have hv := h.1
      have hw := h.2.1.1
      have hwv := h.2.1.2
      have hz := h.2.2
      simp only [applyObjChange, forwardStep]
      rw [dotc_update (c.set w (-(c.getD v 0)))
        (Function.update x v (max (x v) 0)) w (max (-(x v)) 0)
        (by simpa using hw)]
      rw [getD_set_self c w (-(c.getD v 0)) 0 hw]
      rw [Function.update_noteq hwv]
      rw [dotc_update (c.set w (-(c.getD v 0))) x v (max (x v) 0)
        (by simpa using hv)]
      rw [getD_set_ne c w v (-(c.getD v 0)) 0 (fun hvw => hwv hvw.symm)]
      rw [dotc_set c x w (-(c.getD v 0)) hw]
      rw [hz]
      have hm : max (x v) 0 = x v + max (-(x v)) 0 := by
        have := maxSub (x v)
        linarith
      rw [hm]
      ring

theorem applyObjChange_length (c : List ℚ) (d : ℚ) (chg : VChange) :
    (applyObjChange (c, d) chg).1.length = c.length := by
  cases chg with
  | lowerBound r v lb => rfl
  | upperBound r v ub => simp [applyObjChange]
  | range r v lb ub w => cases w <;> simp [applyObjChange]
  | unbounded r v w => simp [applyObjChange]

theorem applyObjChange_getD_of_not_writeHit (c : List ℚ) (d : ℚ)
    (chg : VChange) (j : Nat) (hj : writeHit chg j = false) :
    (applyObjChange (c, d) chg).1.getD j 0 = c.getD j 0 := by
  cases chg with
  | lowerBound r v lb => rfl
  | upperBound r v ub =>
      have hne : j ≠ v := by
        simp [writeHit, VChange.v, VChange.wOpt] at hj
        exact hj
      exact getD_set_ne c v j _ 0 hne
  | range r v lb ub w =>
      cases w with
      | none => rfl
      | some s =>
          have hne : j ≠ s := by
            simp [writeHit, VChange.v, VChange.wOpt] at hj
            exact hj.2
          exact getD_set_ne c s j _ 0 hne
  | unbounded r v w =>
      have hne : j ≠ w := by
        simp [writeHit, VChange.v, VChange.wOpt] at hj
        exact hj.2
      exact getD_set_ne c w j _ 0 hne

theorem objHeadOK_congr (c c1 : List ℚ) (c2 : VChange)
    (hlen : c1.length = c.length)
    (hsame : ∀ w2, c2.wOpt = some w2 → c1.getD w2 0 = c.getD w2 0)
    (h : objHeadOK c c2 = true) : objHeadOK c1 c2 = true := by
  unfold objHeadOK at h ⊢
  cases hw : c2.wOpt with
  | none =>
      rw [hw] at h
      simpa [hlen] using h
  | some w =>
      rw [hw] at h
      simp only at h ⊢
      rw [hlen, hsame w hw]
      exact h

theorem objSafeB_congr (rest : List VChange) (c c1 : List ℚ)
    (hlen : c1.length = c.length)
    (hsame : ∀ c2 ∈ rest, ∀ w2, c2.wOpt = some w2 →
      c1.getD w2 0 = c.getD w2 0)
    (h : objSafeB c rest = true) : objSafeB c1 rest = true := by
  induction rest with
  | nil => rfl
  | cons c2 rest2 ih =>
      simp only [objSafeB, Bool.and_eq_true] at h ⊢
      refine ⟨⟨objHeadOK_congr c c1 c2 hlen
        (fun w2 hw2 => hsame c2 (List.mem_cons_self _ _) w2 hw2) h.1.1,
        h.1.2⟩, ?_⟩
      exact ih (fun c3 hc3 w3 hw3 =>
        hsame c3 (List.mem_cons_of_mem _ hc3) w3 hw3) h.2

theorem objSafeB_tail (c : List ℚ) (d : ℚ) (chg : VChange)
    (rest : List VChange) (h : objSafeB c (chg :: rest) = true) :
    objSafeB (applyObjChange (c, d) chg).1 rest = true := by
  simp only [objSafeB, Bool.and_eq_true] at h
  refine objSafeB_congr rest c _ (applyObjChange_length c d chg) ?_ h.2
  intro c2 hc2 w2 hw2
  have hall := h.1.2
  rw [List.all_eq_true] at hall
  have hx := hall c2 hc2
  rw [hw2] at hx
  have hhit : writeHit chg w2 = false := by simpa using hx
  exact applyObjChange_getD_of_not_writeHit c d chg w2 hhit

theorem objFold_equiv (chgs : List VChange) :
    ∀ (c : List ℚ) (d : ℚ) (x : Nat → ℚ), objSafeB c chgs = true →
    dotc (chgs.foldl applyObjChange (c, d)).1 (forwardSub chgs x) +
      (chgs.foldl applyObjChange (c, d)).2 = dotc c x + d := by
  induction chgs with
  | nil => intro c d x _; rfl
  | cons chg rest ih =>
      intro c d x h
      have h2 := ih (applyObjChange (c, d) chg).1
        (applyObjChange (c, d) chg).2 (forwardStep x chg)
        (objSafeB_tail c d chg rest h)
      have hstep := objStep_preserves c d x chg (by
        simp only [objSafeB, Bool.and_eq_true] at h
        exact h.1.1)
      exact h2.trans hstep

/-- C1: processing a change list through `_process_changes_obj` preserves
the objective value: for any point `x`, evaluating the rewritten objective
(including its offset `d`) at the forward-substituted point — shift by `lb`,
negate-and-shift by `ub`, split into positive and negative parts — gives
the value of the original objective at `x`.  The hypothesis `objSafeB`
states that the change indices lie inside the (already resized) vector `c`
and that newly allocated slots are fresh and zero-filled, which is how
`convert_to_nonnegative_variables` invokes the rewriter. -/
theorem C1_objective_equivalence (chgs : List VChange) (c : List ℚ) (d : ℚ)
    (x : Nat → ℚ) (h : objSafeB c chgs = true) :
    dotc ((_process_changes_obj chgs (some c) d).1.getD [])
        (forwardSub chgs x) +
      (_process_changes_obj chgs (some c) d).2 = dotc c x + d :=
  objFold_equiv chgs c d x h

theorem C1_objective_equivalence_witness :
    objSafeB [3, 5, 0] (_find_nonpositive_variables exC1V false).data = true ∧
    (dotc ((_process_changes_obj (_find_nonpositive_variables exC1V false).data
          (some [3, 5, 0]) 7).1.getD [])
        (forwardSub (_find_nonpositive_variables exC1V false).data
          (fun j => if j = 0 then 4 else if j = 1 then -2 else 9)) +
      (_process_changes_obj (_find_nonpositive_variables exC1V false).data
          (some [3, 5, 0]) 7).2 =
      dotc [3, 5, 0] (fun j => if j = 0 then 4 else if j = 1 then -2 else 9)
        + 7) :=
  ⟨by decide, C1_objective_equivalence _ _ _ _ (by decide)⟩

/-! ## Dictionary and sparse matrix lemmas (C3, C5) -/

theorem lastMatch_cons (e : (Nat × Nat) × ℚ) (rest : List ((Nat × Nat) × ℚ))
    (k : Nat × Nat) :
    lastMatch (e :: rest) k =
      (match lastMatch rest k with
       | some q => some q
       | none => if e.1 = k then some e.2 else none) := rfl

theorem find?_filter_of_imp {α : Type} (m : List α) (p q : α → Bool)
    (himp : ∀ e, p e = true → q e = true) :
    (m.filter q).find? p = m.find? p := by
  induction m with
  | nil => rfl
  | cons a tl ih =>
      by_cases hq : q a = true
      · rw [List.filter_cons_of_pos hq]
        by_cases hp : p a = true
        · rw [List.find?_cons_of_pos _ hp, List.find?_cons_of_pos _ hp]
        · rw [List.find?_cons_of_neg _ (by simpa using hp),
            List.find?_cons_of_neg _ (by simpa using hp)]
          exact ih
      · rw [List.filter_cons_of_neg (by simpa using hq)]
        have hp : p a = false := by
          rcases Bool.eq_false_or_eq_true (p a) with hx | hx
          · exact absurd (himp a hx) hq
          · exact hx
        rw [List.find?_cons_of_neg _ (by simp [hp])]
        exact ih

theorem find?_append_left_none {α : Type} (l₁ l₂ : List α) (p : α → Bool)
    (h : l₁.find? p = none) : (l₁ ++ l₂).find? p = l₂.find? p := by
  induction l₁ with
  | nil => rfl
  | cons a tl ih =>
      by_cases hp : p a = true
      · rw [List.find?_cons_of_pos _ hp] at h
        exact absurd h (by simp)
      · rw [List.find?_cons_of_neg _ (by simpa using hp)] at h
        rw [List.cons_append, List.find?_cons_of_neg _ (by simpa using hp)]
        exact ih h

theorem dfind_filter_ne (m : List ((Nat × Nat) × ℚ)) (k : Nat × Nat) :
    (m.filter (fun e => e.1 ≠ k)).find? (fun e => e.1 == k) = none := by
  rw [List.find?_eq_none]
  intro e he
  have hmem := List.mem_filter.mp he
  simpa using hmem.2

theorem dget_dset_self (m : List ((Nat × Nat) × ℚ)) (k : Nat × Nat) (q : ℚ) :
    dget (dset m k q) k = q := by
  unfold dget dfind dset
  rw [find?_append_left_none _ _ _ (dfind_filter_ne m k)]
  simp

theorem find?_append_right_none {α : Type} (l₁ l₂ : List α) (p : α → Bool)
    (h : l₂.find? p = none) : (l₁ ++ l₂).find? p = l₁.find? p := by
  induction l₁ with
  | nil => simpa using h
  | cons a tl ih =>
      by_cases hp : p a = true
      · rw [List.cons_append, List.find?_cons_of_pos _ hp,
          List.find?_cons_of_pos _ hp]
      · rw [List.cons_append, List.find?_cons_of_neg _ (by simpa using hp),
          List.find?_cons_of_neg _ (by simpa using hp)]
        exact ih

theorem dget_dset_ne (m : List ((Nat × Nat) × ℚ)) (k k2 : Nat × Nat) (q : ℚ)
    (h : k2 ≠ k) : dget (dset m k q) k2 = dget m k2 := by
  unfold dget dfind dset
  rw [find?_append_right_none _ _ _ (by
    rw [List.find?_eq_none]
    intro e he
    have he2 : e = (k, q) := by simpa using he
    subst he2
    simpa using fun hk => h hk.symm)]
  rw [find?_filter_of_imp m (fun e => e.1 == k2) (fun e => e.1 ≠ k)
    (fun e he => by
      simp only [beq_iff_eq] at he
      simp [he, h])]

theorem lastMatch_eq_none_of_all_ne (items : List ((Nat × Nat) × ℚ))
    (k : Nat × Nat) (h : ∀ e ∈ items, e.1 ≠ k) : lastMatch items k = none := by
  induction items with
  | nil => rfl
  | cons e rest ih =>
      rw [lastMatch_cons, ih (fun e2 he2 => h e2 (List.mem_cons_of_mem _ he2))]
      simp [h e (List.mem_cons_self _ _)]

theorem mergeFold_get (items : List ((Nat × Nat) × ℚ)) :
    ∀ (m : List ((Nat × Nat) × ℚ)) (k : Nat × Nat),
    dget (mergeFold m items) k =
      (match lastMatch items k with
       | some q => q
       | none => dget m k) := by
  induction items with
  | nil => intro m k; rfl
  | cons e rest ih =>
      intro m k
      have hstep : mergeFold m (e :: rest) =
          mergeFold (dset m e.1 e.2) rest := rfl
      rw [hstep, ih (dset m e.1 e.2) k, lastMatch_cons]
      cases hr : lastMatch rest k with
      | some q => rfl
      | none =>
          by_cases hek : e.1 = k
          · subst hek
            simp [dget_dset_self]
          · simp only [hek, if_false]
            exact dget_dset_ne m e.1 k e.2 (fun hc => hek hc.symm)

theorem lastMatch_eq_dfind (m : List ((Nat × Nat) × ℚ)) (k : Nat × Nat)
    (hnodup : (m.map (fun e => e.1)).Nodup) : lastMatch m k = dfind m k := by
  induction m with
  | nil => rfl
  | cons e rest ih =>
      rw [List.map_cons, List.nodup_cons] at hnodup
      by_cases hek : e.1 = k
      · subst hek
        rw [lastMatch_cons]
        have hrest : lastMatch rest e.1 = none := by
          apply lastMatch_eq_none_of_all_ne
          intro e2 he2 hc
          exact hnodup.1 (List.mem_map.mpr ⟨e2, he2, hc⟩)
        rw [hrest]
        unfold dfind
        rw [List.find?_cons_of_pos _ (by simp)]
        simp
      · have hstep2 : lastMatch (e :: rest) k = lastMatch rest k := by
          rw [lastMatch_cons]
          cases hr : lastMatch rest k
          · simp [hek]
          · rfl
        rw [hstep2, ih hnodup.2]
        unfold dfind
        rw [List.find?_cons_of_neg _ (by simpa using hek)]

theorem colEntries_cons_pos (e : (Nat × Nat) × ℚ)
    (rest : List ((Nat × Nat) × ℚ)) (v : Nat) (hev : e.1.2 = v) :
    colEntries (e :: rest) v = (e.1.1, e.2) :: colEntries rest v := by
  unfold colEntries
  rw [List.filterMap_cons]
  simp [hev]

theorem colEntries_cons_neg (e : (Nat × Nat) × ℚ)
    (rest : List ((Nat × Nat) × ℚ)) (v : Nat) (hev : ¬e.1.2 = v) :
    colEntries (e :: rest) v = colEntries rest v := by
  unfold colEntries
  rw [List.filterMap_cons]
  simp [hev]

theorem mem_colEntries_orig (entries : List ((Nat × Nat) × ℚ)) (v : Nat)
    (ce : Nat × ℚ) (hce : ce ∈ colEntries entries v) :
    ((ce.1, v), ce.2) ∈ entries := by
  obtain ⟨e2, he2, he2eq⟩ := List.mem_filterMap.mp hce
  by_cases h2v : e2.1.2 = v
  · rw [if_pos h2v] at he2eq
    have hc : (e2.1.1, e2.2) = ce := by injection he2eq
    have hce1 : ce.1 = e2.1.1 := by rw [← hc]
    have hce2 : ce.2 = e2.2 := by rw [← hc]
    have hkey : ((ce.1, v), ce.2) = e2 := by
      rw [hce1, hce2, ← h2v]
    rw [hkey]
    exact he2
  · rw [if_neg h2v] at he2eq
    exact absurd he2eq (by simp)

theorem lastMatch_colmap (entries : List ((Nat × Nat) × ℚ)) (v w i : Nat)
    (hnodup : (entries.map (fun e => e.1)).Nodup) :
    lastMatch ((colEntries entries v).map (fun e => ((e.1, w), -e.2))) (i, w)
      = (dfind entries (i, v)).map (fun q => -q) := by
  induction entries with
  | nil => rfl
  | cons e rest ih =>
      rw [List.map_cons, List.nodup_cons] at hnodup
      have ihr := ih hnodup.2
      by_cases hev : e.1.2 = v
      · rw [colEntries_cons_pos e rest v hev, List.map_cons, lastMatch_cons]
        by_cases hei : e.1.1 = i
        · have hkey : e.1 = (i, v) := by
            rw [← hei, ← hev]
          have hnone : lastMatch
              ((colEntries rest v).map (fun e => ((e.1, w), -e.2)))
              (i, w) = none := by
            apply lastMatch_eq_none_of_all_ne
            intro me hme hc
            obtain ⟨ce, hce, hcemap⟩ := List.mem_map.mp hme
            have hme1 : me.1 = (ce.1, w) := by rw [← hcemap]
            have hcei : ce.1 = i := by
              have := hme1.symm.trans hc
              injection this
            have horig := mem_colEntries_orig rest v ce hce
            rw [hcei] at horig
            exact hnodup.1 (List.mem_map.mpr ⟨((i, v), ce.2), horig,
              by rw [hkey]⟩)
          rw [hnone]
          have hfind : dfind (e :: rest) (i, v) = some e.2 := by
            unfold dfind
            rw [List.find?_cons_of_pos _ (by simp [hkey])]
            rfl
          rw [hfind]
          simp [hei]
        · have hne2 : ¬((e.1.1 : Nat), w) = (i, w) := by
            intro hc
            exact hei (by injection hc)
          have hfind : dfind (e :: rest) (i, v) = dfind rest (i, v) := by
            unfold dfind
            rw [List.find?_cons_of_neg _ (by
              simp only [beq_iff_eq]
              intro hc
              exact hei (by rw [hc]))]
          rw [hfind, ← ihr]
          cases hr : lastMatch
              ((colEntries rest v).map (fun e => ((e.1, w), -e.2))) (i, w)
          · simp [hne2]
          · rfl
      · rw [colEntries_cons_neg e rest v hev]
        have hfind : dfind (e :: rest) (i, v) = dfind rest (i, v) := by
          unfold dfind
          rw [List.find?_cons_of_neg _ (by
            simp only [beq_iff_eq]
            intro hc
            exact hev (by rw [hc]))]
        rw [hfind, ihr]

/-- C3: processing an `Unbounded` change, the constraint rewriter introduces
the new column `w` with `A[row, w] = -A[row, v]` at every row, leaves column
`v` (and every other column) unchanged, and merges the new column into the
sparse structure by coordinate union — the hypotheses state that `w` is a
fresh (structurally empty) column, which is how the resized matrices present
it, so no two contributions ever collide. -/
theorem C3_unbounded_column (M : SpMat) (b : List ℚ) (chgsR : VChanges)
    (V : LevelVariable) (r : Bool) (v w : Nat) (ar : Bool)
    (hdata : chgsR.data = [VChange.unbounded r v w])
    (hrows : 0 < M.nrows)
    (hfresh : ∀ e ∈ M.entries, e.1.2 ≠ w)
    (hnodup : (M.entries.map (fun e => e.1)).Nodup) :
    (_process_changes_con chgsR V (some M) b ar).2 = b ∧
    ∃ R, (_process_changes_con chgsR V (some M) b ar).1 = some R ∧
      R.nrows = M.nrows ∧
      (∀ i, spGet R (i, w) = -(spGet M (i, v))) ∧
      (∀ i j, j ≠ w → spGet R (i, j) = spGet M (i, j)) := by
  have hproc : _process_changes_con chgsR V (some M) b ar =
      (some { nrows := M.nrows
              ncols := chgsR.nxR + chgsR.nxZ + V.nxB
              entries := mergeFold
                (mergeFold [] ((colEntries M.entries v).map
                  (fun e => ((e.1, w), -e.2))))
                M.entries }, b) := by
    unfold _process_changes_con
    rw [hdata]
    simp only [List.foldl_cons, List.foldl_nil, conStep, Option.map,
      Option.getD]
    rw [if_neg (by omega)]
  refine ⟨by rw [hproc],
    { nrows := M.nrows
      ncols := chgsR.nxR + chgsR.nxZ + V.nxB
      entries := mergeFold
        (mergeFold [] ((colEntries M.entries v).map
          (fun e => ((e.1, w), -e.2))))
        M.entries },
    by rw [hproc], rfl, ?_, ?_⟩
  · intro i
    have hnoA : lastMatch M.entries (i, w) = none :=
      lastMatch_eq_none_of_all_ne _ _ (fun e he hc => hfresh e he (by rw [hc]))
    show dget (mergeFold
        (mergeFold [] ((colEntries M.entries v).map
          (fun e => ((e.1, w), -e.2)))) M.entries) (i, w) =
      -(spGet M (i, v))
    rw [mergeFold_get]
    simp only [hnoA]
    rw [mergeFold_get]
    rw [lastMatch_colmap M.entries v w i hnodup]
    cases hf : dfind M.entries (i, v) with
    | none =>
        simp only [Option.map]
        unfold spGet dget
        rw [hf]
        simp only [Option.getD_none, neg_zero]
        rfl
    | some q =>
        simp only [Option.map]
        unfold spGet dget
        rw [hf]
        rfl
  · intro i j hj
    show dget (mergeFold
        (mergeFold [] ((colEntries M.entries v).map
          (fun e => ((e.1, w), -e.2)))) M.entries) (i, j) =
      spGet M (i, j)
    rw [mergeFold_get]
    rw [lastMatch_eq_dfind M.entries (i, j) hnodup]
    cases hf : dfind M.entries (i, j) with
    | some q =>
        simp only []
        unfold spGet dget
        rw [hf]
        rfl
    | none =>
        simp only []
        have hBnone : lastMatch ((colEntries M.entries v).map
            (fun e => ((e.1, w), -e.2))) (i, j) = none := by
          apply lastMatch_eq_none_of_all_ne
          intro me hme hc
          obtain ⟨ce, hce, hmap⟩ := List.mem_map.mp hme
          have hme1 : me.1 = (ce.1, w) := by rw [← hmap]
          rw [hme1] at hc
          have hw : w = j := by injection hc
          exact hj hw.symm
        rw [mergeFold_get]
        simp only [hBnone]
        unfold spGet dget
        rw [hf]
        rfl

theorem C3_unbounded_column_witness :
    (exC3chgs.data = [VChange.unbounded true 0 2] ∧
     0 < exC3M.nrows ∧
     (∀ e ∈ exC3M.entries, e.1.2 ≠ 2) ∧
     (exC3M.entries.map (fun e => e.1)).Nodup) ∧
    ((_process_changes_con exC3chgs exC3V (some exC3M) [5, 6] false).2 =
      [5, 6] ∧
     ∃ R, (_process_changes_con exC3chgs exC3V (some exC3M) [5, 6]
        false).1 = some R ∧
      R.nrows = exC3M.nrows ∧
      (∀ i, spGet R (i, 2) = -(spGet exC3M (i, 0))) ∧
      (∀ i j, j ≠ 2 → spGet R (i, j) = spGet exC3M (i, j))) :=
  ⟨⟨rfl, by decide, by decide, by decide⟩,
   C3_unbounded_column exC3M [5, 6] exC3chgs exC3V true 0 2 false rfl
     (by decide) (by decide) (by decide)⟩

/-! ## The range row-addition invariant (C5) -/

theorem drop_set_of_lt {α : Type} (l : List α) (i : Nat) (a : α) (n : Nat)
    (h : i < n) : (l.set i a).drop n = l.drop n := by
  induction l generalizing i n with
  | nil => rfl
  | cons hd tl ih =>
      cases i with
      | zero =>
          cases n with
          | zero => exact absurd h (by omega)
          | succ m => simp
      | succ i2 =>
          cases n with
          | zero => exact absurd h (by omega)
          | succ m =>
              simp only [List.set_cons_succ, List.drop_succ_cons]
              exact ih i2 m (by omega)

theorem dget_eq_zero_of_all_ne (m : List ((Nat × Nat) × ℚ)) (k : Nat × Nat)
    (h : ∀ e ∈ m, e.1 ≠ k) : dget m k = 0 := by
  unfold dget dfind
  rw [List.find?_eq_none.mpr (fun e he => by simpa using h e he)]
  rfl

theorem mem_dset (m : List ((Nat × Nat) × ℚ)) (k : Nat × Nat) (q : ℚ)
    (e : (Nat × Nat) × ℚ) (he : e ∈ dset m k q) : e.1 = k ∨ e ∈ m := by
  unfold dset at he
  rcases List.mem_append.mp he with hl | hr
  · exact Or.inr (List.mem_filter.mp hl).1
  · left
    have : e = (k, q) := by simpa using hr
    rw [this]

theorem mem_mergeFold (items : List ((Nat × Nat) × ℚ)) :
    ∀ (m : List ((Nat × Nat) × ℚ)) (e : (Nat × Nat) × ℚ),
    e ∈ mergeFold m items → e ∈ m ∨ ∃ it ∈ items, e.1 = it.1 := by
  induction items with
  | nil => intro m e he; exact Or.inl he
  | cons it rest ih =>
      intro m e he
      rcases ih (dset m it.1 it.2) e he with hm | ⟨it2, hit2, hkey⟩
      · rcases mem_dset m it.1 it.2 e hm with hk | hm2
        · exact Or.inr ⟨it, List.mem_cons_self _ _, hk⟩
        · exact Or.inl hm2
      · exact Or.inr ⟨it2, List.mem_cons_of_mem _ hit2, hkey⟩

theorem dget_mergeFold_of_no_key (m items : List ((Nat × Nat) × ℚ))
    (k : Nat × Nat) (h : ∀ it ∈ items, it.1 ≠ k) :
    dget (mergeFold m items) k = dget m k := by
  rw [mergeFold_get]
  rw [lastMatch_eq_none_of_all_ne items k h]

theorem bfold_length (ces : List (Nat × ℚ)) (q : ℚ) :
    ∀ (bb : List ℚ),
    (ces.foldl (fun bb e => bb.set e.1 (bb.getD e.1 0 - e.2 * q)) bb).length =
      bb.length := by
  induction ces with
  | nil => intro bb; rfl
  | cons ce rest ih =>
      intro bb
      rw [List.foldl_cons, ih]
      simp

theorem bfold_drop (ces : List (Nat × ℚ)) (q : ℚ) (n0 bl0 : Nat)
    (hle : n0 ≤ bl0) (hrows : ∀ ce ∈ ces, ce.1 < n0) :
    ∀ (bb : List ℚ),
    (ces.foldl (fun bb e => bb.set e.1 (bb.getD e.1 0 - e.2 * q)) bb).drop
      bl0 = bb.drop bl0 := by
  induction ces with
  | nil => intro bb; rfl
  | cons ce rest ih =>
      intro bb
      rw [List.foldl_cons,
        ih (fun ce2 hce2 => hrows ce2 (List.mem_cons_of_mem _ hce2))]
      exact drop_set_of_lt bb ce.1 _ bl0
        (by have := hrows ce (List.mem_cons_self _ _); omega)

theorem colEntries_rows_lt (entries : List ((Nat × Nat) × ℚ)) (v n0 : Nat)
    (h : ∀ e ∈ entries, e.1.1 < n0) :
    ∀ ce ∈ colEntries entries v, ce.1 < n0 := by
  intro ce hce
  have horig := mem_colEntries_orig entries v ce hce
  exact h _ horig

theorem negcol_rows_lt (entries : List ((Nat × Nat) × ℚ)) (v n0 : Nat)
    (h : ∀ e ∈ entries, e.1.1 < n0) :
    ∀ e2 ∈ entries.map (fun e => if e.1.2 = v then (e.1, -e.2) else e),
      e2.1.1 < n0 := by
  intro e2 he2
  obtain ⟨e, he, hmap⟩ := List.mem_map.mp he2
  by_cases hev : e.1.2 = v
  · rw [if_pos hev] at hmap
    rw [← hmap]
    exact h e he
  · rw [if_neg hev] at hmap
    rw [← hmap]
    exact h e he

theorem rangeB_getD_lt (B : List ((Nat × Nat) × ℚ)) (nr v : Nat)
    (w : Option Nat) (k2 : Nat × Nat) (hk2 : k2.1 ≠ nr) :
    dget (rangeB B nr v w) k2 = dget B k2 := by
  have hne : ∀ c2 : Nat, k2 ≠ (nr, c2) := by
    intro c2 hc
    exact hk2 (by rw [hc])
  cases w with
  | some s =>
      unfold rangeB
      rw [dget_dset_ne _ _ _ _ (hne s), dget_dset_ne _ _ _ _ (hne v)]
  | none =>
      unfold rangeB
      rw [dget_dset_ne _ _ _ _ (hne v)]

theorem rangeB_getD_row (B : List ((Nat × Nat) × ℚ)) (nr v : Nat)
    (w : Option Nat) (col : Nat) (lb ub : ℚ)
    (hB0 : dget B (nr, col) = 0) :
    dget (rangeB B nr v w) (nr, col) = rowIndicator (v, w, lb, ub) col := by
  cases w with
  | some s =>
      unfold rangeB
      by_cases hcs : col = s
      · subst hcs
        rw [dget_dset_self]
        by_cases hcv : col = v <;> simp [rowIndicator, hcv]
      · rw [dget_dset_ne _ _ _ _ (by
          intro hc
          exact hcs (by injection hc))]
        by_cases hcv : col = v
        · subst hcv
          rw [dget_dset_self]
          simp [rowIndicator]
        · rw [dget_dset_ne _ _ _ _ (by
            intro hc
            exact hcv (by injection hc))]
          rw [hB0]
          simp [rowIndicator, hcv, hcs]
  | none =>
      unfold rangeB
      by_cases hcv : col = v
      · subst hcv
        rw [dget_dset_self]
        simp [rowIndicator]
      · rw [dget_dset_ne _ _ _ _ (by
          intro hc
          exact hcv (by injection hc))]
        rw [hB0]
        simp [rowIndicator, hcv]

theorem mem_rangeB (B : List ((Nat × Nat) × ℚ)) (nr v : Nat)
    (w : Option Nat) (e : (Nat × Nat) × ℚ) (he : e ∈ rangeB B nr v w) :
    e.1.1 = nr ∨ e ∈ B := by
  cases w with
  | some s =>
      unfold rangeB at he
      rcases mem_dset _ _ _ e he with hk | hm
      · left
        rw [hk]
      · rcases mem_dset _ _ _ e hm with hk2 | hm2
        · left
          rw [hk2]
        · exact Or.inr hm2
  | none =>
      unfold rangeB at he
      rcases mem_dset _ _ _ e he with hk | hm
      · left
        rw [hk]
      · exact Or.inr hm

theorem conStep_inv (ar : Bool) (n0 bl0 : Nat) (hle : n0 ≤ bl0)
    (st : ConState) (done : List (Nat × Option Nat × ℚ × ℚ)) (chg : VChange)
    (hinv : ConInv ar n0 bl0 st done) :
    ConInv ar n0 bl0 (conStep ar st chg)
      (done ++ (if ar then rangeData [chg] else [])) := by
  obtain ⟨h1, h2, h3, h4, h5, h6, h7⟩ := hinv
  cases chg with
  | lowerBound r v lb =>
      have hrd : rangeData [VChange.lowerBound r v lb] = [] := rfl
      rw [hrd, ite_self, List.append_nil]
      refine ⟨h1, ?_, ?_, h4, h5, h6, h7⟩
      · show (List.foldl
          (fun bb e => bb.set e.1 (bb.getD e.1 0 - e.2 * lb))
          st.b (colEntries st.Acsc v)).length = bl0 + done.length
        rw [bfold_length]
        exact h2
      · show (List.foldl
          (fun bb e => bb.set e.1 (bb.getD e.1 0 - e.2 * lb))
          st.b (colEntries st.Acsc v)).drop bl0 =
          done.map (fun t => t.2.2.2 - t.2.2.1)
        rw [bfold_drop _ _ n0 bl0 hle (colEntries_rows_lt _ _ _ h6)]
        exact h3
  | upperBound r v ub =>
      have hrd : rangeData [VChange.upperBound r v ub] = [] := rfl
      rw [hrd, ite_self, List.append_nil]
      refine ⟨h1, ?_, ?_, h4, h5, negcol_rows_lt st.Acsc v n0 h6, h7⟩
      · show (List.foldl
          (fun bb e => bb.set e.1 (bb.getD e.1 0 - e.2 * ub))
          st.b (colEntries st.Acsc v)).length = bl0 + done.length
        rw [bfold_length]
        exact h2
      · show (List.foldl
          (fun bb e => bb.set e.1 (bb.getD e.1 0 - e.2 * ub))
          st.b (colEntries st.Acsc v)).drop bl0 =
          done.map (fun t => t.2.2.2 - t.2.2.1)
        rw [bfold_drop _ _ n0 bl0 hle (colEntries_rows_lt _ _ _ h6)]
        exact h3
  | unbounded r v w2 =>
      have hrd : rangeData [VChange.unbounded r v w2] = [] := rfl
      rw [hrd, ite_self, List.append_nil]
      have hmapped : ∀ it ∈ (colEntries st.Acsc v).map
          (fun e => ((e.1, w2), -e.2)), it.1.1 < n0 := by
        intro it hit
        obtain ⟨ce, hce, hmap⟩ := List.mem_map.mp hit
        have hit1 : it.1 = (ce.1, w2) := by rw [← hmap]
        rw [hit1]
        exact colEntries_rows_lt st.Acsc v n0 h6 ce hce
      refine ⟨h1, h2, h3, ?_, ?_, h6, h7⟩
      · intro k hk col
        show dget (mergeFold st.B ((colEntries st.Acsc v).map
          (fun e => ((e.1, w2), -e.2)))) (n0 + k, col) =
          rowIndicator (done.getD k (0, none, 0, 0)) col
        rw [dget_mergeFold_of_no_key _ _ _ (fun it hit hc => by
          have hlt := hmapped it hit
          rw [hc] at hlt
          omega)]
        exact h4 k hk col
      · intro e he
        rcases mem_mergeFold _ st.B e he with hm | ⟨it, hit, hkey⟩
        · exact h5 e hm
        · have hlt := hmapped it hit
          rw [hkey]
          omega
  | range r v lb ub w =>
      have hrd : rangeData [VChange.range r v lb ub w] = [(v, w, lb, ub)] :=
        rfl
      rw [hrd]
      have hb1len : (List.foldl
          (fun bb e => bb.set e.1 (bb.getD e.1 0 - e.2 * lb))
          st.b (colEntries st.Acsc v)).length = bl0 + done.length := by
        rw [bfold_length]
        exact h2
      have hb1drop : (List.foldl
          (fun bb e => bb.set e.1 (bb.getD e.1 0 - e.2 * lb))
          st.b (colEntries st.Acsc v)).drop bl0 =
          done.map (fun t => t.2.2.2 - t.2.2.1) := by
        rw [bfold_drop _ _ n0 bl0 hle (colEntries_rows_lt _ _ _ h6)]
        exact h3
      cases har : ar with
      | false =>
          rw [if_neg (by simp)]
          rw [List.append_nil]
          have hstep : conStep false st (VChange.range r v lb ub w) =
              { Acsc := st.Acsc
                B := st.B
                b := List.foldl
                    (fun bb e => bb.set e.1 (bb.getD e.1 0 - e.2 * lb))
                    st.b (colEntries st.Acsc v)
                nrows := st.nrows } := by
            simp [conStep]
          rw [hstep]
          exact ⟨h1, hb1len, hb1drop, h4, h5, h6, fun _ => h7 har⟩
      | true =>
          rw [if_pos rfl]
          have hstep : conStep true st (VChange.range r v lb ub w) =
              { Acsc := st.Acsc
                B := rangeB st.B st.nrows v w
                b := (List.foldl
                    (fun bb e => bb.set e.1 (bb.getD e.1 0 - e.2 * lb))
                    st.b (colEntries st.Acsc v)) ++ [ub - lb]
                nrows := st.nrows + 1 } := by
            simp [conStep]
          rw [hstep]
          refine ⟨?_, ?_, ?_, ?_, ?_, h6, by simp⟩
          · show st.nrows + 1 = n0 + (done ++ [(v, w, lb, ub)]).length
            rw [List.length_append]
            simp only [List.length_singleton]
            omega
          · show ((List.foldl
              (fun bb e => bb.set e.1 (bb.getD e.1 0 - e.2 * lb))
              st.b (colEntries st.Acsc v)) ++ [ub - lb]).length =
              bl0 + (done ++ [(v, w, lb, ub)]).length
            rw [List.length_append, hb1len, List.length_append]
            simp only [List.length_singleton]
            omega
          · show ((List.foldl
              (fun bb e => bb.set e.1 (bb.getD e.1 0 - e.2 * lb))
              st.b (colEntries st.Acsc v)) ++ [ub - lb]).drop bl0 =
              (done ++ [(v, w, lb, ub)]).map (fun t => t.2.2.2 - t.2.2.1)
            rw [List.drop_append_of_le_length (by omega), hb1drop,
              List.map_append]
            rfl
          · intro k hk col
            rw [List.length_append] at hk
            simp only [List.length_singleton] at hk
            show dget (rangeB st.B st.nrows v w) (n0 + k, col) =
              rowIndicator ((done ++ [(v, w, lb, ub)]).getD k
                (0, none, 0, 0)) col
            rcases Nat.lt_or_ge k done.length with hkd | hkd
            · rw [List.getD_append _ _ _ _ hkd]
              rw [rangeB_getD_lt _ _ _ _ _ (by
                show n0 + k ≠ st.nrows
                omega)]
              exact h4 k hkd col
            · have hkd2 : k = done.length := by omega
              subst hkd2
              rw [List.getD_append_right _ _ _ _ (le_refl _)]
              simp only [Nat.sub_self]
              have hB0 : dget st.B (st.nrows, col) = 0 := by
                apply dget_eq_zero_of_all_ne
                intro e he hc
                have hlt := h5 e he
                rw [hc, h1] at hlt
                omega
              have hkey : ((n0 + done.length : Nat), col) =
                  ((st.nrows : Nat), col) := by
                rw [h1]
              rw [hkey]
              exact rangeB_getD_row st.B st.nrows v w col lb ub hB0
          · intro e he
            rw [List.length_append]
            simp only [List.length_singleton]
            rcases mem_rangeB _ _ _ _ e he with hx | hx
            · omega
            · have hlt := h5 e hx
              omega

theorem rangeData_cons (c : VChange) (l : List VChange) :
    rangeData (c :: l) = rangeData [c] ++ rangeData l := by
  cases c <;> simp [rangeData, List.filterMap_cons]

theorem conFold_inv (ar : Bool) (n0 bl0 : Nat) (hle : n0 ≤ bl0) :
    ∀ (chgs : List VChange) (st : ConState)
      (done : List (Nat × Option Nat × ℚ × ℚ)),
    ConInv ar n0 bl0 st done →
    ConInv ar n0 bl0 (chgs.foldl (conStep ar) st)
      (done ++ (if ar then rangeData chgs else [])) := by
  intro chgs
  induction chgs with
  | nil =>
      intro st done h
      have hnil : done ++ (if ar then rangeData [] else []) = done := by
        cases ar <;> simp [rangeData]
      rw [hnil]
      exact h
  | cons chg rest ih =>
      intro st done h
      have hs := conStep_inv ar n0 bl0 hle st done chg h
      have hr := ih (conStep ar st chg) _ hs
      rw [List.foldl_cons]
      have hlist : done ++ (if ar then rangeData (chg :: rest) else []) =
          (done ++ (if ar then rangeData [chg] else [])) ++
            (if ar then rangeData rest else []) := by
        cases ar
        · simp
        · simp only [if_true]
          rw [rangeData_cons, List.append_assoc]
      rw [hlist]
      exact hr

theorem process_con_eq (chgsR : VChanges) (V : LevelVariable) (M : SpMat)
    (b : List ℚ) (ar : Bool) :
    _process_changes_con chgsR V (some M) b ar =
      (if (conFoldSt chgsR M b ar).nrows = 0 then
        (none, (conFoldSt chgsR M b ar).b)
       else
        (some { nrows := (conFoldSt chgsR M b ar).nrows
                ncols := chgsR.nxR + chgsR.nxZ + V.nxB
                entries := mergeFold (conFoldSt chgsR M b ar).B
                  (conFoldSt chgsR M b ar).Acsc },
         (conFoldSt chgsR M b ar).b)) := rfl

theorem process_con_inv (chgsR : VChanges) (M : SpMat) (b : List ℚ)
    (ar : Bool) (hwf1 : ∀ e ∈ M.entries, e.1.1 < M.nrows)
    (hlen : M.nrows ≤ b.length) :
    ConInv ar M.nrows b.length (conFoldSt chgsR M b ar)
      (if ar then rangeData chgsR.data else []) := by
  have hinv0 : ConInv ar M.nrows b.length
      { Acsc := M.entries, B := [], b := b, nrows := M.nrows } [] := by
    refine ⟨by simp, by simp, by simp, ?_, by simp, hwf1, fun _ => rfl⟩
    intro k hk
    simp at hk
  have hfold := conFold_inv ar M.nrows b.length hlen chgsR.data
    { Acsc := M.entries, B := [], b := b, nrows := M.nrows } [] hinv0
  rw [List.nil_append] at hfold
  exact hfold

/-- C5: the `add_rows` flag of the constraint rewriter is exactly the
ownership test `L.id == X.id` of the call site.  When the referencing level
is not the owner no row is appended; when it is the owner, exactly one row
per `Range` change is appended — with right-hand side `ub - lb` and
coefficient `1` on the shifted variable (and on the slack when a slack index
exists, `0` elsewhere in the new row) — so each physical variable
contributes its row once, never once per referencing level. -/
theorem C5_range_row_addition (chgsR : VChanges) (V : LevelVariable)
    (M : SpMat) (b : List ℚ) (Lid Xid : Nat)
    (hwf1 : ∀ e ∈ M.entries, e.1.1 < M.nrows)
    (hlen : M.nrows ≤ b.length) :
    (Lid ≠ Xid →
      (_process_changes_con chgsR V (some M) b (Lid == Xid)).2.length =
        b.length) ∧
    (Lid = Xid →
      ((_process_changes_con chgsR V (some M) b (Lid == Xid)).2.length =
          b.length + (rangeData chgsR.data).length ∧
        (_process_changes_con chgsR V (some M) b (Lid == Xid)).2.drop
            b.length =
          (rangeData chgsR.data).map (fun t => t.2.2.2 - t.2.2.1) ∧
        ∀ k, k < (rangeData chgsR.data).length → ∀ col,
          spGet ((_process_changes_con chgsR V (some M) b
              (Lid == Xid)).1.getD { nrows := 0, ncols := 0, entries := [] })
            (M.nrows + k, col) =
            rowIndicator ((rangeData chgsR.data).getD k (0, none, 0, 0))
              col)) := by
  have hsnd : (_process_changes_con chgsR V (some M) b (Lid == Xid)).2 =
      (conFoldSt chgsR M b (Lid == Xid)).b := by
    rw [process_con_eq]
    split <;> rfl
  obtain ⟨g1, g2, g3, g4, g5, g6, g7⟩ :=
    process_con_inv chgsR M b (Lid == Xid) hwf1 hlen
  constructor
  · intro hne
    have har : (Lid == Xid) = false := by simpa using hne
    rw [hsnd, g2, har]
    simp
  · intro heq
    have har : (Lid == Xid) = true := by simp [heq]
    rw [har] at hsnd g1 g2 g3 g4 g5 g6
    simp only [if_true] at g1 g2 g3 g4
    rw [har]
    refine ⟨?_, ?_, ?_⟩
    · rw [hsnd]
      exact g2
    · rw [hsnd]
      exact g3
    · intro k hk col
      have hpos : ¬(conFoldSt chgsR M b true).nrows = 0 := by
        rw [g1]
        omega
      rw [process_con_eq, if_neg hpos]
      show dget (mergeFold (conFoldSt chgsR M b true).B
        (conFoldSt chgsR M b true).Acsc) (M.nrows + k, col) = _
      rw [dget_mergeFold_of_no_key _ _ _ (fun it hit hc => by
        have hlt := g6 it hit
        rw [hc] at hlt
        simp at hlt)]
      exact g4 k hk col

theorem C5_range_row_addition_witness :
    ((∀ e ∈ exC5M.entries, e.1.1 < exC5M.nrows) ∧
      exC5M.nrows ≤ [(10 : ℚ)].length) ∧
    ((0 ≠ 0 →
      (_process_changes_con (_find_nonpositive_variables exC5V true) exC5V
        (some exC5M) [10] (0 == 0)).2.length = [(10 : ℚ)].length) ∧
     (0 = 0 →
      ((_process_changes_con (_find_nonpositive_variables exC5V true) exC5V
          (some exC5M) [10] (0 == 0)).2.length =
        [(10 : ℚ)].length +
          (rangeData (_find_nonpositive_variables exC5V true).data).length ∧
       (_process_changes_con (_find_nonpositive_variables exC5V true) exC5V
          (some exC5M) [10] (0 == 0)).2.drop [(10 : ℚ)].length =
        (rangeData (_find_nonpositive_variables exC5V true).data).map
          (fun t => t.2.2.2 - t.2.2.1) ∧
       ∀ k, k <
          (rangeData (_find_nonpositive_variables exC5V true).data).length →
        ∀ col,
          spGet ((_process_changes_con
              (_find_nonpositive_variables exC5V true) exC5V
              (some exC5M) [10] (0 == 0)).1.getD
            { nrows := 0, ncols := 0, entries := [] })
            (exC5M.nrows + k, col) =
          rowIndicator
            ((rangeData (_find_nonpositive_variables exC5V true).data).getD
              k (0, none, 0, 0)) col))) :=
  ⟨⟨by decide, by decide⟩,
   C5_range_row_addition (_find_nonpositive_variables exC5V true) exC5V
     exC5M [10] 0 0 (by decide) (by decide)⟩

/-! ## The kind check and the surviving upper bound -/

/-- C8: `convert_to_standard_form` fails with `TypeKindError` when the input
problem's kind is neither linear nor quadratic; in the embedding the check
is the first step of the function, taken before the clone and before any
rewrite touches the problem. -/
theorem C8_kind_check (M : Problem) (inequalities : Bool)
    (h1 : M.kind ≠ kindLinear) (h2 : M.kind ≠ kindQuadratic) :
    convert_to_standard_form M inequalities =
      Except.error ConvertError.TypeKindError := by
  have hc : ¬ (M.kind = kindLinear ∨ M.kind = kindQuadratic) := by
    rintro (h | h)
    · exact h1 h
    · exact h2 h
  simp only [convert_to_standard_form]
  rw [if_neg hc]

/-- C8 (witness): the kind tag `2` is rejected. -/
theorem C8_kind_check_witness :
    (exC8P.kind ≠ kindLinear ∧ exC8P.kind ≠ kindQuadratic) ∧
    convert_to_standard_form exC8P true =
      Except.error ConvertError.TypeKindError :=
  ⟨⟨by decide, by decide⟩, C8_kind_check exC8P true (by decide) (by decide)⟩

/-- C2: refuted on the source — no statement of `convert_repn.py` assigns
`upper_bounds` (only `lower_bounds` is reset to zeros), so a finite upper
bound survives standardization: on a problem whose single continuous
variable has bounds `(-inf, 5]` the call succeeds and the returned level has
`lower_bounds = [0]` but `upper_bounds = [5]`, not `+inf`. -/
theorem C2_upper_bound_not_reset :
    (convert_to_standard_form exC2P false).map (fun r =>
      ((r.1.levels.getD 0 default).x.lower_bounds,
       (r.1.levels.getD 0 default).x.upper_bounds)) =
      Except.ok ([EF.fin 0], [EF.fin 5]) := by
  rfl

/-! ## Shape preservation through the variable normalizer -/

theorem set_oob {α : Type} (l : List α) (i : Nat) (a : α)
    (h : l.length ≤ i) : l.set i a = l := by
  induction l generalizing i with
  | nil => rfl
  | cons x t ih =>
      cases i with
      | zero => simp at h
      | succ i =>
          have h2 : t.length ≤ i := by
            simp only [List.length_cons] at h
            omega
          show x :: t.set i a = x :: t
          rw [ih i h2]

theorem pres_getD_map (f : LevelData → LevelData)
    (hf : ∀ X, (f X).id = X.id ∧ (f X).Pmap = X.Pmap)
    (l : List LevelData) (p : Nat) :
    ((l.map f).getD p default).id = (l.getD p default).id ∧
    ((l.map f).getD p default).Pmap = (l.getD p default).Pmap := by
  induction l generalizing p with
  | nil => exact ⟨rfl, rfl⟩
  | cons a t ih =>
      cases p with
      | zero => exact hf a
      | succ p => exact ih p

theorem resizeLevelX_id_Pmap (oR oZ lid nxR2 nxZ2 nxB2 : Nat) (lb ub : EF)
    (X : LevelData) :
    (resizeLevelX oR oZ lid nxR2 nxZ2 nxB2 lb ub X).id = X.id ∧
    (resizeLevelX oR oZ lid nxR2 nxZ2 nxB2 lb ub X).Pmap = X.Pmap := by
  simp only [resizeLevelX]
  split <;> split <;> split <;> exact ⟨rfl, rfl⟩

theorem setLowerZerosX_id_Pmap (lid n : Nat) (X : LevelData) :
    (setLowerZerosX lid n X).id = X.id ∧
    (setLowerZerosX lid n X).Pmap = X.Pmap := by
  simp only [setLowerZerosX]
  split <;> exact ⟨rfl, rfl⟩

theorem resizeLevel_shape (P : Problem) (lid nxR2 nxZ2 nxB2 : Nat)
    (lb ub : EF) :
    (resizeLevel P lid nxR2 nxZ2 nxB2 lb ub).levels.length =
      P.levels.length ∧
    ∀ p,
      ((resizeLevel P lid nxR2 nxZ2 nxB2 lb ub).levels.getD p default).id =
        (P.levels.getD p default).id ∧
      ((resizeLevel P lid nxR2 nxZ2 nxB2 lb ub).levels.getD p default).Pmap =
        (P.levels.getD p default).Pmap := by
  cases h : P.levels.find? (fun L => L.id == lid) with
  | none =>
      have heq : resizeLevel P lid nxR2 nxZ2 nxB2 lb ub = P := by
        simp only [resizeLevel, h]
      rw [heq]
      exact ⟨rfl, fun p => ⟨rfl, rfl⟩⟩
  | some L0 =>
      simp only [resizeLevel, h]
      exact ⟨List.length_map _ _, fun p =>
        pres_getD_map _
          (fun X => resizeLevelX_id_Pmap _ _ _ _ _ _ _ _ X) _ p⟩

theorem setLowerZeros_shape (P : Problem) (lid n : Nat) :
    (setLowerZeros P lid n).levels.length = P.levels.length ∧
    ∀ p,
      ((setLowerZeros P lid n).levels.getD p default).id =
        (P.levels.getD p default).id ∧
      ((setLowerZeros P lid n).levels.getD p default).Pmap =
        (P.levels.getD p default).Pmap :=
  ⟨List.length_map _ _, fun p =>
    pres_getD_map _ (fun X => setLowerZerosX_id_Pmap lid n X) _ p⟩

theorem nonnegInner_ok (lid : Nat) (ch : VChanges) (Lx : LevelVariable)
    (acc : Problem) (q : Nat)
    (hP : ¬ 0 < ((acc.levels.getD q default).Pmap).length) :
    ∃ acc2, nonnegInner lid ch Lx acc q = Except.ok acc2 ∧
      acc2.levels.length = acc.levels.length ∧
      ∀ p, ((acc2.levels.getD p default).id = (acc.levels.getD p default).id ∧
        (acc2.levels.getD p default).Pmap =
          (acc.levels.getD p default).Pmap) := by
  simp only [nonnegInner, if_neg hP]
  refine ⟨_, rfl, by simp, ?_⟩
  intro p
  by_cases hpq : p = q
  · subst hpq
    by_cases hlt : p < acc.levels.length
    · show ((acc.levels.set p _).getD p default).id = _ ∧
        ((acc.levels.set p _).getD p default).Pmap = _
      rw [getD_set_self _ _ _ _ hlt]
      exact ⟨rfl, rfl⟩
    · show ((acc.levels.set p _).getD p default).id = _ ∧
        ((acc.levels.set p _).getD p default).Pmap = _
      rw [set_oob _ _ _ (by omega)]
      exact ⟨rfl, rfl⟩
  · show ((acc.levels.set q _).getD p default).id = _ ∧
      ((acc.levels.set q _).getD p default).Pmap = _
    rw [getD_set_ne _ _ _ _ _ hpq]
    exact ⟨rfl, rfl⟩

theorem innerFold_error (lid : Nat) (ch : VChanges) (Lx : LevelVariable)
    (qs : List Nat) :
    ∀ acc : Problem,
    (∃ q ∈ qs, 0 < ((acc.levels.getD q default).Pmap).length) →
    List.foldlM (nonnegInner lid ch Lx) acc qs =
      Except.error ConvertError.UnsupportedStructureError := by
  induction qs with
  | nil =>
      rintro acc ⟨q, hq, _⟩
      simp at hq
  | cons q rest ih =>
      rintro acc ⟨q0, hq0, hq0P⟩
      by_cases hP : 0 < ((acc.levels.getD q default).Pmap).length
      · have hstep : nonnegInner lid ch Lx acc q =
            Except.error ConvertError.UnsupportedStructureError := by
          simp only [nonnegInner]
          rw [if_pos hP]
        rw [List.foldlM_cons, hstep]
        rfl
      · obtain ⟨acc2, hok, hlen, hpres⟩ := nonnegInner_ok lid ch Lx acc q hP
        rw [List.foldlM_cons, hok]
        show List.foldlM (nonnegInner lid ch Lx) acc2 rest = _
        apply ih
        have hq0rest : q0 ∈ rest := by
          rcases List.mem_cons.mp hq0 with h | h
          · subst h
            exact absurd hq0P hP
          · exact h
        refine ⟨q0, hq0rest, ?_⟩
        rw [(hpres q0).2]
        exact hq0P

theorem nonnegOuter_step (changes : List (Nat × VChanges)) (acc : Problem)
    (p : Nat)
    (hq : ∃ q, q < acc.levels.length ∧
      0 < ((acc.levels.getD q default).Pmap).length) :
    (0 < (((lget changes
        ((acc.levels.getD p default).id)).getD default).data).length →
      nonnegOuter changes acc p =
        Except.error ConvertError.UnsupportedStructureError) ∧
    (¬ 0 < (((lget changes
        ((acc.levels.getD p default).id)).getD default).data).length →
      ∃ acc2, nonnegOuter changes acc p = Except.ok acc2 ∧
        acc2.levels.length = acc.levels.length ∧
        ∀ r, ((acc2.levels.getD r default).id =
            (acc.levels.getD r default).id ∧
          (acc2.levels.getD r default).Pmap =
            (acc.levels.getD r default).Pmap)) := by
  obtain ⟨hrl, hrp⟩ := resizeLevel_shape acc ((acc.levels.getD p default).id)
    (((lget changes ((acc.levels.getD p default).id)).getD default).nxR)
    (((lget changes ((acc.levels.getD p default).id)).getD default).nxZ)
    ((acc.levels.getD p default).x.nxB) EF.ninf EF.pinf
  obtain ⟨hsl, hsp⟩ := setLowerZeros_shape
    (resizeLevel acc ((acc.levels.getD p default).id)
      (((lget changes ((acc.levels.getD p default).id)).getD default).nxR)
      (((lget changes ((acc.levels.getD p default).id)).getD default).nxZ)
      ((acc.levels.getD p default).x.nxB) EF.ninf EF.pinf)
    ((acc.levels.getD p default).id)
    ((((lget changes ((acc.levels.getD p default).id)).getD default).nxR) +
      (((lget changes ((acc.levels.getD p default).id)).getD default).nxZ))
  constructor
  · intro hch
    simp only [nonnegOuter, if_pos hch]
    apply innerFold_error
    obtain ⟨q0, hq0lt, hq0P⟩ := hq
    refine ⟨q0, List.mem_range.mpr ?_, ?_⟩
    · rw [hsl, hrl]
      exact hq0lt
    · rw [(hsp q0).2, (hrp q0).2]
      exact hq0P
  · intro hch
    simp only [nonnegOuter, if_neg hch]
    refine ⟨_, rfl, ?_, ?_⟩
    · rw [hsl, hrl]
    · intro r
      constructor
      · rw [(hsp r).1, (hrp r).1]
      · rw [(hsp r).2, (hrp r).2]

theorem outerFold_error (changes : List (Nat × VChanges)) (ps : List Nat) :
    ∀ acc : Problem,
    (∃ p ∈ ps, 0 < (((lget changes
      ((acc.levels.getD p default).id)).getD default).data).length) →
    (∃ q, q < acc.levels.length ∧
      0 < ((acc.levels.getD q default).Pmap).length) →
    List.foldlM (nonnegOuter changes) acc ps =
      Except.error ConvertError.UnsupportedStructureError := by
  induction ps with
  | nil =>
      rintro acc ⟨p, hp, _⟩ _
      simp at hp
  | cons p rest ih =>
      rintro acc ⟨p0, hp0, hp0ch⟩ hq
      by_cases hch : 0 < (((lget changes
          ((acc.levels.getD p default).id)).getD default).data).length
      · have hstep := (nonnegOuter_step changes acc p hq).1 hch
        rw [List.foldlM_cons, hstep]
        rfl
      · obtain ⟨acc2, hok, hlen, hpres⟩ :=
          (nonnegOuter_step changes acc p hq).2 hch
        rw [List.foldlM_cons, hok]
        show List.foldlM (nonnegOuter changes) acc2 rest = _
        apply ih
        · have hp0rest : p0 ∈ rest := by
            rcases List.mem_cons.mp hp0 with h | h
            · subst h
              exact absurd hp0ch hch
            · exact h
          refine ⟨p0, hp0rest, ?_⟩
          rw [(hpres p0).1]
          exact hp0ch
        · obtain ⟨q0, hq0lt, hq0P⟩ := hq
          refine ⟨q0, ?_, ?_⟩
          · rw [hlen]
            exact hq0lt
          · rw [(hpres q0).2]
            exact hq0P

theorem lget_map_find (levels : List LevelData) (ineq : Bool) (p : Nat)
    (hnd : (levels.map (fun L => L.id)).Nodup) (hp : p < levels.length) :
    lget (levels.map (fun L =>
        (L.id, _find_nonpositive_variables L.x ineq)))
      ((levels.getD p default).id) =
      some (_find_nonpositive_variables (levels.getD p default).x ineq) := by
  induction levels generalizing p with
  | nil => simp at hp
  | cons a t ih =>
      rw [List.map_cons, List.nodup_cons] at hnd
      cases p with
      | zero =>
          simp only [List.getD_cons_zero, List.map_cons, lget]
          rw [List.find?_cons_of_pos _ (by simp)]
          rfl
      | succ p =>
          have hp2 : p < t.length := by
            simp only [List.length_cons] at hp
            omega
          have hkey : (t.getD p default).id ∈ t.map (fun L => L.id) := by
            have hmem : t.getD p default ∈ t := by
              rw [List.getD_eq_getElem t default hp2]
              exact List.getElem_mem hp2
            exact List.mem_map.mpr ⟨_, hmem, rfl⟩
          have hne : (a.id == (t.getD p default).id) = false := by
            rw [beq_eq_false_iff_ne]
            intro heq
            exact hnd.1 (heq ▸ hkey)
          simp only [List.getD_cons_succ, List.map_cons, lget]
          rw [List.find?_cons_of_neg _ (by simpa using hne)]
          have := ih p hnd.2 hp2
          simpa only [lget] using this

/-- C7: when standardization would have to propagate quadratic terms through
bound changes — the bound normalizer produces a nonempty change list for
some level while some level carries a nonempty `P` map — the variable
normalizer fails with `UnsupportedStructureError` (the failing
`_process_changes_P` call) instead of silently dropping the terms. -/
theorem C7_quadratic_error (P : Problem) (ineq : Bool) (p q : Nat)
    (hnd : (P.levels.map (fun L => L.id)).Nodup)
    (hp : p < P.levels.length)
    (hch : 0 < ((_find_nonpositive_variables
      (P.levels.getD p default).x ineq).data).length)
    (hq : q < P.levels.length)
    (hP : 0 < ((P.levels.getD q default).Pmap).length) :
    convert_to_nonnegative_variables P ineq =
      Except.error ConvertError.UnsupportedStructureError := by
  have harg : 0 < (((lget (P.levels.map (fun L =>
      (L.id, _find_nonpositive_variables L.x ineq)))
      ((P.levels.getD p default).id)).getD default).data).length := by
    rw [lget_map_find P.levels ineq p hnd hp]
    exact hch
  have hfold := outerFold_error
    (P.levels.map (fun L => (L.id, _find_nonpositive_variables L.x ineq)))
    (List.range P.levels.length) P ⟨p, List.mem_range.mpr hp, harg⟩
    ⟨q, hq, hP⟩
  simp only [convert_to_nonnegative_variables, hfold]

/-- C7 (witness): a one-level quadratic problem whose single variable is
bounded below by `1` and whose `P` map is nonempty fails with
`UnsupportedStructureError`. -/
theorem C7_quadratic_error_witness :
    ((exC7P.levels.map (fun L => L.id)).Nodup ∧
      0 < exC7P.levels.length ∧
      0 < ((_find_nonpositive_variables
        (exC7P.levels.getD 0 default).x true).data).length ∧
      0 < ((exC7P.levels.getD 0 default).Pmap).length) ∧
    convert_to_nonnegative_variables exC7P true =
      Except.error ConvertError.UnsupportedStructureError :=
  ⟨⟨by decide, by decide, by decide, by decide⟩,
   C7_quadratic_error exC7P true 0 0 (by decide) (by decide) (by decide)
     (by decide) (by decide)⟩

/-- C9: refuted on the source — `get_multipliers` builds the multiplier
table over the ORIGINAL level's variables but subscripts it with the
reindexed change index `chg.v`: standardizing a valid problem whose level
has one unbounded continuous variable and one integer bounded above by `5`
reindexes the integer's `UpperBound` change to `v = 2` against an original
block of length `2`, so `multipliers[L.id][2] = [(2, -1)]` raises
`IndexError` and the builder returns none of the claimed multiplier
lists. -/
theorem C9_multiplier_index_crash :
    convert_to_standard_form exC9P true =
      Except.error ConvertError.IndexError := by
  rfl
